import Mathlib

/-!
Verification of the visit-analytics aggregator (`src/server.js`) against its
natural-language specification.

The JavaScript program is shallowly embedded:
* JS numbers are modelled as `JNum`: either an exact rational or one of the
  IEEE special values `NaN`, `+Infinity`, `-Infinity` (negative zero is
  identified with zero, which is observationally irrelevant for this program:
  it never divides by a stored zero nor renders `-0`).
* JSON-shaped JS values (what `JSON.parse` can produce, plus `undefined` as
  the result of a missing property access) are modelled as `JVal`.
* JS objects are modelled as insertion-ordered association lists (`JMap`);
  `Object.entries` enumerates the list in order, and property assignment
  updates the first matching key or appends.
* Strings are `List Char`.  `toLowerCase` is modelled on the ASCII range
  (the route/site/range vocabulary of this program), and `trim` on the ASCII
  whitespace characters.
-/

/-- Convert a string literal to the `List Char` representation used below. -/
def chars (s : String) : List Char := s.data

/-- ASCII whitespace, the relevant subset of the characters removed by
JS `String.prototype.trim`. -/
def isWsChar (c : Char) : Bool :=
  c = ' ' || c = '\t' || c = '\n' || c = '\r' || c = Char.ofNat 11 || c = Char.ofNat 12

/-- JS `String.prototype.toLowerCase`, modelled on ASCII letters. -/
def lowerChar (c : Char) : Char :=
  if 'A' ≤ c ∧ c ≤ 'Z' then Char.ofNat (c.toNat + 32) else c

/-- JS `String.prototype.trim`: drop leading and trailing whitespace. -/
def trimChars (l : List Char) : List Char :=
  ((l.dropWhile isWsChar).reverse.dropWhile isWsChar).reverse

/-- The model of a JS number: an exact rational or an IEEE special value. -/
inductive JNum where
  | nan : JNum
  | posInf : JNum
  | negInf : JNum
  | fin : ℚ → JNum
deriving DecidableEq, Repr

namespace JNum

/-- JS truthiness of a number: `NaN` and `0` are falsy. -/
def truthy : JNum → Bool
  | nan => false
  | posInf => true
  | negInf => true
  | fin q => q ≠ 0

/-- `Number.isFinite`. -/
def isFinite : JNum → Bool
  | fin _ => true
  | _ => false

/-- JS `x || 0` applied to a number (used as `Number(v) || 0` in the source):
falsy numbers (`0`, `NaN`) become `0`. -/
def or0 (x : JNum) : JNum := if x.truthy then x else fin 0

/-- JS `+` on numbers. -/
def add : JNum → JNum → JNum
  | nan, _ => nan
  | _, nan => nan
  | posInf, negInf => nan
  | negInf, posInf => nan
  | posInf, _ => posInf
  | _, posInf => posInf
  | negInf, _ => negInf
  | _, negInf => negInf
  | fin a, fin b => fin (a + b)

/-- JS `*` on numbers. -/
def mul : JNum → JNum → JNum
  | nan, _ => nan
  | _, nan => nan
  | posInf, posInf => posInf
  | posInf, negInf => negInf
  | negInf, posInf => negInf
  | negInf, negInf => posInf
  | posInf, fin q => if 0 < q then posInf else if q < 0 then negInf else nan
  | fin q, posInf => if 0 < q then posInf else if q < 0 then negInf else nan
  | negInf, fin q => if 0 < q then negInf else if q < 0 then posInf else nan
  | fin q, negInf => if 0 < q then negInf else if q < 0 then posInf else nan
  | fin a, fin b => fin (a * b)

/-- JS `/` on numbers (no negative zero in the model, so division by a zero
denominator picks the sign of the numerator; the program never divides by a
stored zero). -/
def div : JNum → JNum → JNum
  | nan, _ => nan
  | _, nan => nan
  | posInf, posInf => nan
  | posInf, negInf => nan
  | negInf, posInf => nan
  | negInf, negInf => nan
  | posInf, fin q => if 0 ≤ q then posInf else negInf
  | negInf, fin q => if 0 ≤ q then negInf else posInf
  | fin _, posInf => fin 0
  | fin _, negInf => fin 0
  | fin a, fin b =>
      if b = 0 then (if a = 0 then nan else if 0 < a then posInf else negInf)
      else fin (a / b)

/-- JS `<` on numbers (`NaN` compares false). -/
def ltb : JNum → JNum → Bool
  | nan, _ => false
  | _, nan => false
  | posInf, _ => false
  | negInf, negInf => false
  | negInf, _ => true
  | fin _, posInf => true
  | fin _, negInf => false
  | fin a, fin b => a < b

/-- JS `<=` on numbers (`NaN` compares false). -/
def leb : JNum → JNum → Bool
  | nan, _ => false
  | _, nan => false
  | negInf, _ => true
  | _, negInf => false
  | _, posInf => true
  | posInf, fin _ => false
  | fin a, fin b => a ≤ b

/-- JS `Math.min` (NaN-propagating). -/
def jmin : JNum → JNum → JNum
  | nan, _ => nan
  | _, nan => nan
  | negInf, _ => negInf
  | _, negInf => negInf
  | posInf, y => y
  | x, posInf => x
  | fin a, fin b => fin (min a b)

/-- JS `Math.max` (NaN-propagating). -/
def jmax : JNum → JNum → JNum
  | nan, _ => nan
  | _, nan => nan
  | posInf, _ => posInf
  | _, posInf => posInf
  | negInf, y => y
  | x, negInf => x
  | fin a, fin b => fin (max a b)

/-- JS `Math.round`: round half toward positive infinity. -/
def jround : JNum → JNum
  | nan => nan
  | posInf => posInf
  | negInf => negInf
  | fin q => fin ((⌊q + 1/2⌋ : ℤ) : ℚ)

end JNum

/-! ## JS values

`JVal` models the values this program manipulates: everything `JSON.parse`
can produce, plus `undefined` (the result of a missing property access).
JSON arrays are not modelled separately: for the code under verification an
array behaves as an enumerable object (its `ToNumber`/`ToString` coercions
produce numbers and strings that plain inputs of the modelled kinds also
produce, so no reachable behaviour is lost). -/

inductive JVal where
  | undef : JVal
  | jnull : JVal
  | bool : Bool → JVal
  | num : JNum → JVal
  | str : List Char → JVal
  | obj : List (List Char × JVal) → JVal
deriving Repr

/-- Property access `v[k]`: `undefined` on a missing key or a non-object. -/
def getField (v : JVal) (k : List Char) : JVal :=
  match v with
  | .obj fields =>
      match fields.find? (fun kv => kv.1 = k) with
      | some kv => kv.2
      | none => .undef
  | _ => (.undef)

/-- JS truthiness. -/
def jvTruthy : JVal → Bool
  | .undef => false
  | .jnull => false
  | .bool b => b
  | .num n => n.truthy
  | .str s => !s.isEmpty
  | .obj _ => true

/-- `typeof v === 'object'` (true for `null` as well). -/
def typeofObject : JVal → Bool
  | .jnull => true
  | .obj _ => true
  | _ => false

/-- `typeof v === 'number'`. -/
def typeofNumber : JVal → Bool
  | .num _ => true
  | _ => false

/-- `typeof v === 'string'`. -/
def typeofString : JVal → Bool
  | .str _ => true
  | _ => false

/-- The guard pattern `v && typeof v === 'object'` used throughout the source. -/
def isObjTruthy (v : JVal) : Bool := jvTruthy v && typeofObject v

/-! ### Number coercion (`ToNumber`) -/

def isDigitChar (c : Char) : Bool := '0' ≤ c && c ≤ '9'

def digitVal (c : Char) : ℕ := c.toNat - 48

/-- Value of a nonempty all-digit string in the given base, `none` otherwise. -/
def digitsToNat (base : ℕ) (valOf : Char → Option ℕ) (l : List Char) : Option ℕ :=
  match l with
  | [] => none
  | _ =>
    l.foldl (fun acc c =>
      match acc, valOf c with
      | some a, some d => some (a * base + d)
      | _, _ => none) (some 0)

def decDigitVal (c : Char) : Option ℕ :=
  if isDigitChar c then some (digitVal c) else none

def hexDigitVal (c : Char) : Option ℕ :=
  if isDigitChar c then some (digitVal c)
  else if 'a' ≤ c ∧ c ≤ 'f' then some (c.toNat - 87)
  else if 'A' ≤ c ∧ c ≤ 'F' then some (c.toNat - 55)
  else none

def octDigitVal (c : Char) : Option ℕ :=
  if '0' ≤ c ∧ c ≤ '7' then some (digitVal c) else none

def binDigitVal (c : Char) : Option ℕ :=
  if c = '0' ∨ c = '1' then some (digitVal c) else none

/-- Exponent part of a decimal literal: empty, or `e`/`E` with optional sign
and a nonempty digit run consuming the rest of the string. -/
def parseExpPart : List Char → Option ℤ
  | [] => some 0
  | c :: r =>
    if c = 'e' ∨ c = 'E' then
      match r with
      | '+' :: r2 => (digitsToNat 10 decDigitVal r2).map (fun n => (n : ℤ))
      | '-' :: r2 => (digitsToNat 10 decDigitVal r2).map (fun n => -(n : ℤ))
      | _ => (digitsToNat 10 decDigitVal r).map (fun n => (n : ℤ))
    else none

/-- `StrUnsignedDecimalLiteral` other than `Infinity`:
`digits [. digits] [exponent]` or `. digits [exponent]`. -/
def parseDecimalLit (l : List Char) : Option ℚ :=
  let intDs := l.takeWhile isDigitChar
  let r1 := l.dropWhile isDigitChar
  let intVal : ℚ := (intDs.foldl (fun a c => a * 10 + digitVal c) 0 : ℕ)
  match r1 with
  | '.' :: r2 =>
      let fracDs := r2.takeWhile isDigitChar
      let r3 := r2.dropWhile isDigitChar
      if intDs.isEmpty && fracDs.isEmpty then none
      else
        let fracVal : ℚ := (fracDs.foldl (fun a c => a * 10 + digitVal c) 0 : ℕ)
        (parseExpPart r3).map (fun e =>
          (intVal + fracVal / (10 : ℚ) ^ fracDs.length) * (10 : ℚ) ^ e)
  | _ =>
      if intDs.isEmpty then none
      else (parseExpPart r1).map (fun e => intVal * (10 : ℚ) ^ e)

/-- JS `ToNumber` on a string.  Models the exact rational value of the
numeric literal; double-precision rounding and overflow to `Infinity` for
astronomically large literals are not modelled (the program only compares
these values against small constants and each other). -/
def strToNumber (s : List Char) : JNum :=
  match trimChars s with
  | [] => .fin 0
  | '0' :: c :: rest =>
      if c = 'x' ∨ c = 'X' then
        match digitsToNat 16 hexDigitVal rest with
        | some n => .fin n
        | none => .nan
      else if c = 'o' ∨ c = 'O' then
        match digitsToNat 8 octDigitVal rest with
        | some n => .fin n
        | none => .nan
      else if c = 'b' ∨ c = 'B' then
        match digitsToNat 2 binDigitVal rest with
        | some n => .fin n
        | none => .nan
      else
        match parseDecimalLit ('0' :: c :: rest) with
        | some q => .fin q
        | none => .nan
  | t =>
      let signed : Bool × List Char :=
        match t with
        | '+' :: r => (false, r)
        | '-' :: r => (true, r)
        | _ => (false, t)
      if signed.2 = chars "Infinity" then
        if signed.1 then .negInf else .posInf
      else
        match parseDecimalLit signed.2 with
        | some q => .fin (if signed.1 then -q else q)
        | none => .nan

/-- JS `ToNumber`. -/
def jsToNumber : JVal → JNum
  | .undef => .nan
  | .jnull => .fin 0
  | .bool b => if b then .fin 1 else .fin 0
  | .num n => n
  | .str s => strToNumber s
  | .obj _ => .nan

/-! ### String coercion (`ToString`) -/

/-- Decimal expansion of the fractional part `f ∈ [0,1)`, fuel-bounded.
Every IEEE double is a dyadic rational, whose expansion terminates within
1100 digits; JS additionally prints the shortest round-trip representation
and switches to exponent notation beyond `1e21`, which is not modelled —
the program only compares coerced strings against non-numeric keyword
tables, where every spelling of a number fails the lookup alike. -/
def fracDigitsChars : ℚ → ℕ → List Char
  | _, 0 => []
  | f, fuel + 1 =>
    if f = 0 then []
    else
      let f10 := f * 10
      Char.ofNat (48 + (⌊f10⌋ % 10).toNat) :: fracDigitsChars (f10 - ⌊f10⌋) fuel

/-- Decimal rendering of a rational (JS `String(number)` for finite values). -/
def qToChars (q : ℚ) : List Char :=
  let a := |q|
  let ip := (⌊a⌋).toNat
  let frac := fracDigitsChars (a - ⌊a⌋) 1200
  let core := if frac.isEmpty then Nat.toDigits 10 ip
              else Nat.toDigits 10 ip ++ '.' :: frac
  if q < 0 then '-' :: core else core

def numToChars : JNum → List Char
  | .nan => chars "NaN"
  | .posInf => chars "Infinity"
  | .negInf => chars "-Infinity"
  | .fin q => qToChars q

/-- JS `ToString` (for plain JSON objects, `ToPrimitive` yields
the `[object Object]` tag). -/
def jsToString : JVal → List Char
  | .undef => chars "undefined"
  | .jnull => chars "null"
  | .bool b => if b then chars "true" else chars "false"
  | .num n => numToChars n
  | .str s => s
  | .obj _ => chars "[object Object]"

/-! ## JS objects as insertion-ordered association lists -/

/-- A JS object used as a map.  The program's keys (route keys, date keys)
are plain string keys, so `Object.entries`/`Object.keys` enumerate them in
insertion order, which the list order models. -/
abbrev JMap (α : Type) := List (List Char × α)

/-- Property read `m[k]`. -/
def jget {α : Type} : JMap α → List Char → Option α
  | [], _ => none
  | (k', v) :: rest, k => if k' = k then some v else jget rest k

/-- Property write `m[k] = v`: overwrite the (first) binding or append. -/
def jset {α : Type} : JMap α → List Char → α → JMap α
  | [], k, v => [(k, v)]
  | (k', v') :: rest, k, v =>
      if k' = k then (k, v) :: rest else (k', v') :: jset rest k v

def jkeys {α : Type} (m : JMap α) : List (List Char) := m.map Prod.fst

/-! ## Day-key calendar

`getTodayKey` = `formatDateKey(getColombiaDate(ref))` in the source: shift
the reference instant by the fixed UTC−5 offset and take the ISO calendar
date.  `Date.parse`/`toISOString` are modelled through exact proleptic
Gregorian conversions between epoch days and `(year, month, day)`. -/

def DAY_IN_MS : Int := 24 * 60 * 60 * 1000
def MAX_DAILY_HISTORY_DAYS : Int := 366
def COLOMBIA_UTC_OFFSET_MS : Int := -5 * 60 * 60 * 1000
def MAX_TRACKABLE_DURATION_MS : ℚ := 24 * 60 * 60 * 1000
def LEGACY_ROUTE_NAME : List Char := chars "general"

def isLeapYear (y : Int) : Bool :=
  (y % 4 = 0 && y % 100 ≠ 0) || y % 400 = 0

def daysInMonth (y m : Int) : Int :=
  if m = 2 then (if isLeapYear y then 29 else 28)
  else if m = 4 ∨ m = 6 ∨ m = 9 ∨ m = 11 then 30
  else 31

/-- Days since the Unix epoch of a proleptic Gregorian date
(standard era-based conversion, floor divisions). -/
def daysFromCivil (y m d : Int) : Int :=
  let yAdj := if m ≤ 2 then y - 1 else y
  let era := Int.fdiv yAdj 400
  let yoe := yAdj - era * 400
  let mp := Int.emod (m + 9) 12
  let doy := Int.fdiv (153 * mp + 2) 5 + d - 1
  let doe := yoe * 365 + Int.fdiv yoe 4 - Int.fdiv yoe 100 + doy
  era * 146097 + doe - 719468

/-- Proleptic Gregorian date of a count of days since the Unix epoch. -/
def civilFromDays (z0 : Int) : Int × Int × Int :=
  let z := z0 + 719468
  let era := Int.fdiv z 146097
  let doe := z - era * 146097
  let yoe := Int.fdiv (doe - Int.fdiv doe 1460 + Int.fdiv doe 36524 - Int.fdiv doe 146096) 365
  let y := yoe + era * 400
  let doy := doe - (365 * yoe + Int.fdiv yoe 4 - Int.fdiv yoe 100)
  let mp := Int.fdiv (5 * doy + 2) 153
  let d := doy - Int.fdiv (153 * mp + 2) 5 + 1
  let m := mp + (if mp < 10 then 3 else -9)
  (if m ≤ 2 then y + 1 else y, m, d)

def digitChar (n : ℕ) : Char := Char.ofNat (48 + n % 10)

def pad4 (n : ℕ) : List Char :=
  [digitChar (n / 1000), digitChar (n / 100), digitChar (n / 10), digitChar n]

def pad2 (n : ℕ) : List Char := [digitChar (n / 10), digitChar n]

/-- `date.toISOString().slice(0, 10)` (`formatDateKey` in the source).
Years outside `0000..9999` are rendered by `toISOString` in the expanded
`±YYYYYY` form (or the call throws for out-of-range times); after `slice`
such a key never passes `isValidDateKey`, which the `'+'`-marker models.
The month/day bounds in the guard always hold for `civilFromDays` outputs. -/
def mkDateKey : Int × Int × Int → List Char
  | (y, m, d) =>
    if 0 ≤ y ∧ y ≤ 9999 ∧ 1 ≤ m ∧ m ≤ 12 ∧ 1 ≤ d ∧ d ≤ 31 then
      pad4 y.toNat ++ '-' :: (pad2 m.toNat ++ '-' :: pad2 d.toNat)
    else chars "+expanded-year"

/-- `getTodayKey(referenceDate)`: calendar day of the instant shifted into
the fixed UTC−5 offset. -/
def getTodayKey (ref : Int) : List Char :=
  mkDateKey (civilFromDays (Int.fdiv (ref + COLOMBIA_UTC_OFFSET_MS) DAY_IN_MS))

def num2 (a b : Char) : Int := (10 * digitVal a + digitVal b : ℕ)

def num4 (a b c d : Char) : Int :=
  (1000 * digitVal a + 100 * digitVal b + 10 * digitVal c + digitVal d : ℕ)

/-- `Date.parse` on the date-only forms of the ES Date Time String Format
(`YYYY`, `YYYY-MM`, `YYYY-MM-DD`), the only spec-mandated formats; strings
outside the format (whose parse is implementation-defined) and
time-bearing forms (which the program never produces as keys) are modelled
as `NaN` (`none`). -/
def dateParse (l : List Char) : Option Int :=
  match l with
  | [a, b, c, d] =>
      if [a, b, c, d].all isDigitChar then
        some (daysFromCivil (num4 a b c d) 1 1 * DAY_IN_MS)
      else none
  | [a, b, c, d, '-', e, f] =>
      if [a, b, c, d, e, f].all isDigitChar ∧ 1 ≤ num2 e f ∧ num2 e f ≤ 12 then
        some (daysFromCivil (num4 a b c d) (num2 e f) 1 * DAY_IN_MS)
      else none
  | [a, b, c, d, '-', e, f, '-', g, h] =>
      if [a, b, c, d, e, f, g, h].all isDigitChar ∧ 1 ≤ num2 e f ∧ num2 e f ≤ 12 ∧
         1 ≤ num2 g h ∧ num2 g h ≤ daysInMonth (num4 a b c d) (num2 e f) then
        some (daysFromCivil (num4 a b c d) (num2 e f) (num2 g h) * DAY_IN_MS)
      else none
  | _ => none

/-- The `DATE_KEY_REGEX` test (`^\d{4}-\d{2}-\d{2}$`). -/
def matchesDateKeyPattern : List Char → Bool
  | [a, b, c, d, e, f, g, h, i, j] =>
      isDigitChar a && isDigitChar b && isDigitChar c && isDigitChar d &&
      e = '-' && isDigitChar f && isDigitChar g && h = '-' &&
      isDigitChar i && isDigitChar j
  | _ => false

/-- `isValidDateKey`: the regex test plus a finite `Date.parse`. -/
def isValidDateKey (k : List Char) : Bool :=
  matchesDateKeyPattern k && (dateParse k).isSome

/-- `getTimestampForDateKey`: `Date.parse(dateKey) - COLOMBIA_UTC_OFFSET_MS`,
`none` standing for `NaN`. -/
def getTimestampForDateKey (k : List Char) : Option Int :=
  (dateParse k).map (fun p => p - COLOMBIA_UTC_OFFSET_MS)

/-! ## RouteKey and Duration sanitizers -/

/-- `.replace(/\/+/g, '/')`: collapse every run of slashes to one
(structural right-to-left formulation: a slash immediately followed by
another slash is dropped, which keeps exactly one slash per run). -/
def collapseSlashes : List Char → List Char
  | [] => []
  | c :: rest =>
      let r := collapseSlashes rest
      if c = '/' ∧ r.head? = some '/' then r else c :: r

/-- `.replace(/\/+$/, '')`. -/
def dropTrailingSlashes (l : List Char) : List Char :=
  (l.reverse.dropWhile (fun c => c = '/')).reverse

/-- `sanitizeRoute`: non-strings map to the empty key; otherwise trim,
lowercase, cut at the first `?` or `#`, strip leading and trailing slashes,
collapse repeated slashes. -/
def sanitizeRoute (route : JVal) : List Char :=
  match route with
  | .str s =>
      let trimmed := (trimChars s).map lowerChar
      if trimmed.isEmpty then []
      else
        let path := trimmed.takeWhile (fun c => ¬(c = '?' ∨ c = '#'))
        collapseSlashes (dropTrailingSlashes (path.dropWhile (fun c => c = '/')))
  | _ => []

/-- `Math.round` on a plain rational. -/
def roundQ (q : ℚ) : ℚ := ((⌊q + 1/2⌋ : ℤ) : ℚ)

/-- `sanitizeDurationValue`: `null` unless the coercion is finite and
positive; clamp to 24 h and round to the nearest millisecond. -/
def sanitizeDurationValue (value : JVal) : Option ℚ :=
  match jsToNumber value with
  | .fin q =>
      if q ≤ 0 then none
      else some (roundQ (min q MAX_TRACKABLE_DURATION_MS))
  | _ => none

/-! ## Range and site resolution -/

def RANGE_PRESETS (k : List Char) : Option ℕ :=
  if k = chars "week" then some 7
  else if k = chars "30d" then some 30
  else if k = chars "year" then some 365
  else none

def RANGE_ALIASES : List (List Char × List Char) :=
  [ (chars "week", chars "week"), (chars "semana", chars "week"),
    (chars "esta-semana", chars "week"), (chars "esta_semana", chars "week"),
    (chars "ultimos-7-dias", chars "week"), (chars "7d", chars "week"),
    (chars "30d", chars "30d"), (chars "30-dias", chars "30d"),
    (chars "30dias", chars "30d"), (chars "ultimos-30-dias", chars "30d"),
    (chars "ultimo-mes", chars "30d"), (chars "ultimo_mes", chars "30d"),
    (chars "year", chars "year"), (chars "anual", chars "year"),
    (chars "ultimo-ano", chars "year"), (chars "ultimo-año", chars "year"),
    (chars "ultimo_ano", chars "year"), (chars "ultimo_año", chars "year"),
    (chars "ultimos-12-meses", chars "year") ]

/-- `resolveRangeKey`: falsy input resolves to `week`; otherwise stringify,
lowercase, and look the key up directly and through the alias table. -/
def resolveRangeKey (rawRange : JVal) : Option (List Char) :=
  if ¬ jvTruthy rawRange then some (chars "week")
  else
    let normalized := (jsToString rawRange).map lowerChar
    if (RANGE_PRESETS normalized).isSome then some normalized
    else
      match RANGE_ALIASES.find? (fun p => p.1 = normalized) with
      | some p => if (RANGE_PRESETS p.2).isSome then some p.2 else none
      | none => none

def DEFAULT_SITE : List Char := chars "losandes"

def SITE_ALIASES : List (List Char × List Char) :=
  [ (chars "losandes", chars "losandes"), (chars "los-andes", chars "losandes"),
    (chars "los_andes", chars "losandes"), (chars "andes", chars "losandes"),
    (chars "endomedicos", chars "endomedicos"),
    (chars "endo-medicos", chars "endomedicos"),
    (chars "endo_medicos", chars "endomedicos"),
    (chars "endomédicos", chars "endomedicos") ]

/-- `resolveSiteKey`. -/
def resolveSiteKey (rawSite : JVal) : Option (List Char) :=
  match rawSite with
  | .undef => some DEFAULT_SITE
  | .jnull => some DEFAULT_SITE
  | .str [] => some DEFAULT_SITE
  | _ =>
      let normalized := (trimChars (jsToString rawSite)).map lowerChar
      if normalized.isEmpty then some DEFAULT_SITE
      else
        match SITE_ALIASES.find? (fun p => p.1 = normalized) with
        | some p => some p.2
        | none => none

/-! ## Duration summary algebra -/

structure DurationSummary where
  min : JNum
  max : JNum
  count : JNum
  totalDuration : JNum
deriving DecidableEq, Repr

/-- `createDurationSummary(durationMs)`. -/
def createDurationSummary (durationMs : ℚ) : DurationSummary :=
  ⟨.fin durationMs, .fin durationMs, .fin 1, .fin durationMs⟩

/-- `mergeDurationSummaries` (`undefined` operands modelled as `none`). -/
def mergeDurationSummaries :
    Option DurationSummary → Option DurationSummary → Option DurationSummary
  | none, addition => addition
  | some base, none => some base
  | some base, some addition =>
      some ⟨base.min.jmin addition.min, base.max.jmax addition.max,
            base.count.add addition.count,
            base.totalDuration.add addition.totalDuration⟩

/-- `normalizeDurationSummary`: defends against corrupted persisted
summaries, as written in the source. -/
def normalizeDurationSummary (rawSummary : JVal) : Option DurationSummary :=
  if ¬ isObjTruthy rawSummary then none
  else
    let count := (jsToNumber (getField rawSummary (chars "count"))).or0
    let totalDuration := (jsToNumber (getField rawSummary (chars "totalDuration"))).or0
    if ¬ count.truthy ∨ totalDuration.leb (.fin 0) then none
    else
      let average := totalDuration.div count
      let normalizedMin :=
        match sanitizeDurationValue (.num (jsToNumber (getField rawSummary (chars "min")))) with
        | some v => some v
        | none => sanitizeDurationValue (.num average)
      let normalizedMax :=
        match sanitizeDurationValue (.num (jsToNumber (getField rawSummary (chars "max")))) with
        | some v => some v
        | none => sanitizeDurationValue (.num average)
      match normalizedMin, normalizedMax with
      | some mn, some mx =>
          if mn = 0 ∨ mx = 0 then none
          else
            let lo := min mn mx
            let hi := max mn mx
            let minPossibleTotal := JNum.mul (.fin lo) count
            let maxPossibleTotal := JNum.mul (.fin hi) count
            let t0 := totalDuration.jround
            let t1 := if ¬ t0.isFinite ∨ t0.leb (.fin 0) then minPossibleTotal else t0
            some ⟨.fin lo, .fin hi, count, (t1.jmax minPossibleTotal).jmin maxPossibleTotal⟩
      | _, _ => none

/-! ## SiteStats and the stats normalizer / migrator -/

structure SiteStats where
  total : JNum
  routes : JMap JNum
  daily : JMap (JMap JNum)
  sessionDurations : JMap DurationSummary
  routeDurations : JMap (JMap DurationSummary)
deriving DecidableEq, Repr

/-- `createEmptyStats()`. -/
def createEmptyStats : SiteStats := ⟨.fin 0, [], [], [], []⟩

/-- `normalizedRoutes[sanitized] || 0`: a missing binding reads as `0`, a
falsy stored number is replaced by `0`. -/
def jnumValOr0 : Option JNum → JNum
  | some w => w.or0
  | none => .fin 0

/-- The route-count accumulation loop shared by `normalizeStats` (over
`raw.routes`) and `normalizeDailyStats` (over each day):
sanitize the key, coerce the count, keep positive counts under nonempty
keys, summing entries that collide after sanitization. -/
def accumulateRouteCounts (acc : JMap JNum) : List (List Char × JVal) → JMap JNum
  | [] => acc
  | (routeName, value) :: rest =>
      let sanitized := sanitizeRoute (.str routeName)
      let visits := (jsToNumber value).or0
      if JNum.ltb (.fin 0) visits && !sanitized.isEmpty then
        accumulateRouteCounts
          (jset acc sanitized (JNum.add (jnumValOr0 (jget acc sanitized)) visits)) rest
      else accumulateRouteCounts acc rest

/-- `Object.values(m).reduce((sum, value) => sum + value, 0)`. -/
def sumValues (m : JMap JNum) : JNum := m.foldl (fun s kv => s.add kv.2) (.fin 0)

/-- The per-day loop of `normalizeDailyStats`. -/
def normalizeDailyLoop (acc : JMap (JMap JNum)) :
    List (List Char × JVal) → JMap (JMap JNum)
  | [] => acc
  | (dateKey, routes) :: rest =>
      match routes with
      | .obj routeFields =>
          if isValidDateKey dateKey then
            let normalizedRoutes := accumulateRouteCounts [] routeFields
            if normalizedRoutes.isEmpty then normalizeDailyLoop acc rest
            else normalizeDailyLoop (jset acc dateKey normalizedRoutes) rest
          else normalizeDailyLoop acc rest
      | _ => normalizeDailyLoop acc rest

/-- `normalizeDailyStats`. -/
def normalizeDailyStats : JVal → JMap (JMap JNum)
  | .obj fields => normalizeDailyLoop [] fields
  | _ => []

/-- The per-day loop of `normalizeSessionDurationMap`. -/
def normalizeSessionLoop (acc : JMap DurationSummary) :
    List (List Char × JVal) → JMap DurationSummary
  | [] => acc
  | (dateKey, summary) :: rest =>
      if isValidDateKey dateKey then
        match normalizeDurationSummary summary with
        | some normalizedSummary =>
            normalizeSessionLoop (jset acc dateKey normalizedSummary) rest
        | none => normalizeSessionLoop acc rest
      else normalizeSessionLoop acc rest

/-- `normalizeSessionDurationMap`. -/
def normalizeSessionDurationMap : JVal → JMap DurationSummary
  | .obj fields => normalizeSessionLoop [] fields
  | _ => []

/-- The per-route loop of `normalizeRouteDurationMap`: normalize each
summary and merge on key collision (the merge's first operand is the
accumulator binding, `undefined` on a fresh key, so the `getD` default is
dead code — `mergeDurationSummaries` with a `some` second operand always
returns `some`). -/
def normalizeRouteDurLoop (acc : JMap DurationSummary) :
    List (List Char × JVal) → JMap DurationSummary
  | [] => acc
  | (routeName, summary) :: rest =>
      let sanitized := sanitizeRoute (.str routeName)
      if sanitized.isEmpty then normalizeRouteDurLoop acc rest
      else
        match normalizeDurationSummary summary with
        | some normalizedSummary =>
            let merged :=
              (mergeDurationSummaries (jget acc sanitized) (some normalizedSummary)).getD
                normalizedSummary
            normalizeRouteDurLoop (jset acc sanitized merged) rest
        | none => normalizeRouteDurLoop acc rest

/-- The per-day loop of `normalizeRouteDurationMap`. -/
def normalizeRouteDurDayLoop (acc : JMap (JMap DurationSummary)) :
    List (List Char × JVal) → JMap (JMap DurationSummary)
  | [] => acc
  | (dateKey, routes) :: rest =>
      match routes with
      | .obj routeFields =>
          if isValidDateKey dateKey then
            let normalizedRoutes := normalizeRouteDurLoop [] routeFields
            if normalizedRoutes.isEmpty then normalizeRouteDurDayLoop acc rest
            else normalizeRouteDurDayLoop (jset acc dateKey normalizedRoutes) rest
          else normalizeRouteDurDayLoop acc rest
      | _ => normalizeRouteDurDayLoop acc rest

/-- `normalizeRouteDurationMap`. -/
def normalizeRouteDurationMap : JVal → JMap (JMap DurationSummary)
  | .obj fields => normalizeRouteDurDayLoop [] fields
  | _ => []

/-- `normalizeStats`: total function from an arbitrary persisted blob to a
current-schema stats object. -/
def normalizeStats (raw : JVal) : SiteStats :=
  if ¬ isObjTruthy raw then createEmptyStats
  else
    let normalizedRoutes :=
      match getField raw (chars "routes") with
      | .obj routeFields => accumulateRouteCounts [] routeFields
      | _ => []
    let totalFromRoutes := sumValues normalizedRoutes
    let total0 := jsToNumber (getField raw (chars "total"))
    let total1 := if ¬ total0.isFinite ∨ total0.ltb totalFromRoutes
                  then totalFromRoutes else total0
    let legacyStep : JMap JNum × JNum :=
      if normalizedRoutes.isEmpty && typeofNumber (getField raw (chars "count")) then
        let legacyCount := (jsToNumber (getField raw (chars "count"))).or0
        if JNum.ltb (.fin 0) legacyCount then
          let sanitizedLegacy := sanitizeRoute (.str LEGACY_ROUTE_NAME)
          let legacyRoute := if sanitizedLegacy.isEmpty then LEGACY_ROUTE_NAME
                             else sanitizedLegacy
          ([(legacyRoute, legacyCount)], legacyCount)
        else (normalizedRoutes, total1)
      else (normalizedRoutes, total1)
    { total := legacyStep.2
      routes := legacyStep.1
      daily := normalizeDailyStats (getField raw (chars "daily"))
      sessionDurations := normalizeSessionDurationMap (getField raw (chars "sessionDurations"))
      routeDurations := normalizeRouteDurationMap (getField raw (chars "routeDurations")) }

/-- The per-site loop of `normalizeSitesStore`. -/
def normalizeSitesLoop (acc : JMap SiteStats) :
    List (List Char × JVal) → JMap SiteStats
  | [] => acc
  | (siteName, stats) :: rest =>
      match resolveSiteKey (.str siteName) with
      | some resolved => normalizeSitesLoop (jset acc resolved (normalizeStats stats)) rest
      | none => normalizeSitesLoop acc rest

/-- `normalizeSitesStore`: multi-site wrapper detection with single-site
backward compatibility. -/
def normalizeSitesStore (raw : JVal) : JMap SiteStats :=
  if isObjTruthy raw ∧ isObjTruthy (getField raw (chars "sites")) then
    match getField raw (chars "sites") with
    | .obj siteFields =>
        let normalizedSites := normalizeSitesLoop [] siteFields
        if normalizedSites.isEmpty then [(DEFAULT_SITE, createEmptyStats)]
        else normalizedSites
    | _ => [(DEFAULT_SITE, createEmptyStats)]
  else [(DEFAULT_SITE, normalizeStats raw)]

/-! ## History pruner -/

/-- `pruneDateMap(store, cutoffTimestamp)`: delete every key whose
timestamp is invalid or `< cutoff` — i.e. keep exactly the keys with a
finite timestamp `≥ cutoff`. -/
def pruneDateMap {α : Type} (store : JMap α) (cutoffTimestamp : Int) : JMap α :=
  store.filter (fun kv =>
    match getTimestampForDateKey kv.1 with
    | some ts => cutoffTimestamp ≤ ts
    | none => false)

/-- `pruneDailyStats(stats, referenceDate)`.  The source's repairs of
missing `daily`/`sessionDurations`/`routeDurations` fields are identities
in the structural model, where the fields always exist. -/
def pruneDailyStats (stats : SiteStats) (ref : Int) : SiteStats :=
  match getTimestampForDateKey (getTodayKey ref) with
  | none => stats
  | some todayTimestamp =>
      let cutoffTimestamp := todayTimestamp - (MAX_DAILY_HISTORY_DAYS - 1) * DAY_IN_MS
      { stats with
        daily := pruneDateMap stats.daily cutoffTimestamp
        sessionDurations := pruneDateMap stats.sessionDurations cutoffTimestamp
        routeDurations := pruneDateMap stats.routeDurations cutoffTimestamp }

/-! ## Aggregation engine mutators -/

/-- `incrementDailyCount(stats, route, dateKey)`. -/
def incrementDailyCount (stats : SiteStats) (route : List Char) (dateKey : List Char) :
    SiteStats :=
  let day0 := (jget stats.daily dateKey).getD []
  let base : JNum :=
    match jget day0 route with
    | some v => if v.truthy then v else .fin 0
    | none => .fin 0
  { stats with daily := jset stats.daily dateKey (jset day0 route (base.add (.fin 1))) }

/-- `updateSessionDurationMetrics(stats, durationMs, dateKey)`.  The
summaries the engine updates are always numbers-valued in the model, so the
source's `typeof summary.min === 'number'` guards take their number branch
(`NaN` still counts as a number, exactly as in JS). -/
def updateSessionDurationMetrics (stats : SiteStats) (durationMs : ℚ)
    (dateKey : List Char) : SiteStats :=
  match jget stats.sessionDurations dateKey with
  | none =>
      { stats with sessionDurations :=
          (jset stats.sessionDurations dateKey (createDurationSummary durationMs)) }
  | some summary =>
      let updated : DurationSummary :=
        { count := (summary.count.or0).add (.fin 1)
          totalDuration := (summary.totalDuration.or0).add (.fin durationMs)
          min := summary.min.jmin (.fin durationMs)
          max := summary.max.jmax (.fin durationMs) }
      { stats with sessionDurations := jset stats.sessionDurations dateKey updated }

/-- `updateRouteDurationMetrics(stats, route, durationMs, dateKey)`. -/
def updateRouteDurationMetrics (stats : SiteStats) (route : List Char)
    (durationMs : ℚ) (dateKey : List Char) : SiteStats :=
  let day0 := (jget stats.routeDurations dateKey).getD []
  match jget day0 route with
  | none =>
      { stats with routeDurations :=
          (jset stats.routeDurations dateKey
            (jset day0 route (createDurationSummary durationMs))) }
  | some summary =>
      let updated : DurationSummary :=
        { count := (summary.count.or0).add (.fin 1)
          totalDuration := (summary.totalDuration.or0).add (.fin durationMs)
          min := summary.min.jmin (.fin durationMs)
          max := summary.max.jmax (.fin durationMs) }
      { stats with routeDurations :=
          (jset stats.routeDurations dateKey (jset day0 route updated)) }

/-! ## Range query -/

structure DailyEntry where
  date : List Char
  routes : JMap JNum
  total : JNum
deriving DecidableEq, Repr

/-- Insert into a list already sorted ascending by timestamp (third
component), before the first element with a timestamp `≥` the new one. -/
def insertSortedByTs (e : List Char × JMap JNum × Int) :
    List (List Char × JMap JNum × Int) → List (List Char × JMap JNum × Int)
  | [] => [e]
  | x :: xs => if e.2.2 ≤ x.2.2 then e :: x :: xs else x :: insertSortedByTs e xs

/-- Stable insertion sort ascending by timestamp, modelling
`.sort((a, b) => a.timestamp - b.timestamp)` (a stable comparison sort). -/
def sortByTs : List (List Char × JMap JNum × Int) → List (List Char × JMap JNum × Int)
  | [] => []
  | x :: xs => insertSortedByTs x (sortByTs xs)

/-- `collectDailyVisits(stats, rangeKey)` at reference instant `ref`:
`none` models the `null` return for an unknown range key.  The source's
`.map` to `{dateKey, routes, timestamp}` followed by the finite-and-in-range
`.filter` is fused into one `filterMap`. -/
def collectDailyVisits (stats : SiteStats) (rangeKey : List Char) (ref : Int) :
    Option (List DailyEntry) :=
  match RANGE_PRESETS rangeKey with
  | none => none
  | some days =>
      match getTimestampForDateKey (getTodayKey ref) with
      | none => some []
      | some todayTimestamp =>
          let startTimestamp := todayTimestamp - ((days : Int) - 1) * DAY_IN_MS
          if stats.daily.isEmpty then some []
          else
            let inRange := stats.daily.filterMap (fun kv =>
              match getTimestampForDateKey kv.1 with
              | some ts => if startTimestamp ≤ ts then some (kv.1, kv.2, ts) else none
              | none => none)
            some ((sortByTs inRange).map (fun e => ⟨e.1, e.2.1, sumValues e.2.1⟩))

/-! ## Engine operations (the POST handlers' state transitions) -/

/-- The mutation performed by `POST /api/visits` on the resolved site's
stats: a rejected (empty-sanitizing) route leaves the state unchanged. -/
def recordVisit (stats : SiteStats) (route : JVal) (ref : Int) : SiteStats :=
  let sanitizedRoute := sanitizeRoute route
  if sanitizedRoute.isEmpty then stats
  else
    let base : JNum :=
      match jget stats.routes sanitizedRoute with
      | some v => if v.truthy then v else .fin 0
      | none => .fin 0
    let stats1 := { stats with
      routes := jset stats.routes sanitizedRoute (base.add (.fin 1))
      total := stats.total.add (.fin 1) }
    pruneDailyStats (incrementDailyCount stats1 sanitizedRoute (getTodayKey ref)) ref

/-- The mutation performed by `POST /api/visits/durations`.  Note the
source prunes *before* validating the route when `scope === 'route'`, so a
request failing with the missing-route error has still pruned the stats. -/
def recordDuration (stats : SiteStats) (scope : JVal) (durationVal : JVal)
    (routeVal : JVal) (ref : Int) : SiteStats :=
  let scopeRaw := match scope with
    | .str s => (trimChars s).map lowerChar
    | _ => []
  if ¬ (scopeRaw = chars "session" ∨ scopeRaw = chars "route") then stats
  else
    match sanitizeDurationValue durationVal with
    | none => stats
    | some durationMs =>
        if durationMs = 0 then stats
        else
          let dateKey := getTodayKey ref
          let stats1 := pruneDailyStats stats ref
          if scopeRaw = chars "route" then
            let sanitizedRoute := sanitizeRoute routeVal
            if sanitizedRoute.isEmpty then stats1
            else updateRouteDurationMetrics stats1 sanitizedRoute durationMs dateKey
          else updateSessionDurationMetrics stats1 durationMs dateKey

/-- One engine operation together with the instant at which it runs. -/
inductive EngineOp where
  | visit (route : JVal) (ref : Int)
  | duration (scope : JVal) (durationMs : JVal) (route : JVal) (ref : Int)
  | pruneAt (ref : Int)

def applyOp (stats : SiteStats) : EngineOp → SiteStats
  | .visit route ref => recordVisit stats route ref
  | .duration scope durationMs route ref => recordDuration stats scope durationMs route ref
  | .pruneAt ref => pruneDailyStats stats ref

def runOps (stats : SiteStats) (ops : List EngineOp) : SiteStats :=
  ops.foldl applyOp stats

/-! ## Serialization (`persistCount` / `JSON.parse` round trip) -/

/-- `JSON.stringify` renders `NaN` and the infinities as `null`. -/
def jnumToJson : JNum → JVal
  | .fin q => .num (.fin q)
  | _ => .jnull

def serializeRoutes (m : JMap JNum) : JVal :=
  .obj (m.map (fun kv => (kv.1, jnumToJson kv.2)))

def serializeSummary (s : DurationSummary) : JVal :=
  .obj [ (chars "min", jnumToJson s.min), (chars "max", jnumToJson s.max),
         (chars "totalDuration", jnumToJson s.totalDuration),
         (chars "count", jnumToJson s.count) ]

/-- The JSON image of one site's stats as written by `persistCount`. -/
def serializeStats (s : SiteStats) : JVal :=
  .obj [ (chars "total", jnumToJson s.total),
         (chars "routes", serializeRoutes s.routes),
         (chars "daily", .obj (s.daily.map (fun kv => (kv.1, serializeRoutes kv.2)))),
         (chars "sessionDurations",
          .obj (s.sessionDurations.map (fun kv => (kv.1, serializeSummary kv.2)))),
         (chars "routeDurations",
          .obj (s.routeDurations.map (fun kv =>
            (kv.1, .obj (kv.2.map (fun rv => (rv.1, serializeSummary rv.2))))))) ]

/-- The whole persisted payload `{version: 2, sites}`. -/
def serializeSitesStore (sites : JMap SiteStats) : JVal :=
  .obj [ (chars "version", .num (.fin 2)),
         (chars "sites", .obj (sites.map (fun kv => (kv.1, serializeStats kv.2)))) ]

/-! ## Endpoint validation models -/

/-- The `durationMs` validation of `POST /api/visits/durations`: the handler
proceeds iff `sanitizeDurationValue` returns a *truthy* value — `null` and
`0` (the rounded image of values in `(0, 0.5)`) are both rejected by the
`if (!durationMs)` test. -/
def durationRequestAccepted (durationVal : JVal) : Bool :=
  match sanitizeDurationValue durationVal with
  | some d => d ≠ 0
  | none => false

/-- The range resolution of `GET /api/visits/daily`:
`resolveRangeKey(req.query.range || 'week')`. -/
def dailyRangeResolve (rawRange : JVal) : Option (List Char) :=
  resolveRangeKey (if jvTruthy rawRange then rawRange else .str (chars "week"))

/-! ## Tameness of engine operations

`sanitizeRoute` is not idempotent (stripping boundary slashes can expose
whitespace), so an engine key produced from a hostile route argument need
not survive re-sanitization.  An operation is *tame* when its route
argument is rejected outright or sanitizes to a fixed point of
`sanitizeRoute`, and its reference instant yields a valid today key. -/

def routeStableB (route : JVal) : Bool :=
  (sanitizeRoute route).isEmpty ||
  decide (sanitizeRoute (.str (sanitizeRoute route)) = sanitizeRoute route)

def tameOp : EngineOp → Bool
  | .visit route ref => routeStableB route && isValidDateKey (getTodayKey ref)
  | .duration _ _ route ref => routeStableB route && isValidDateKey (getTodayKey ref)
  | .pruneAt _ => true

/-! ## Value-shape predicates -/

/-- A number that is positive or `+∞`: the shape of every route count kept
by normalization (`visits > 0`). -/
def JNum.PosVal : JNum → Prop
  | .fin q => 0 < q
  | .posInf => True
  | _ => False

/-- A number that is nonnegative or `+∞`. -/
def JNum.NnegVal : JNum → Prop
  | .fin q => 0 ≤ q
  | .posInf => True
  | _ => False

/-- All route counts of a map are positive (or `+∞`). -/
def RoutesPosVal (m : JMap JNum) : Prop := ∀ kv ∈ m, JNum.PosVal kv.2

/-- The C3 invariant: the stored total dominates the sum of the route
counts (`total ≥ Σ routes`, in JS comparison). -/
def TotalInvariant (S : SiteStats) : Prop :=
  (sumValues S.routes).leb S.total = true

/-! ## Engine-state invariants (for the persistence round trip)

`GoodStats` captures the shape of a state reachable by tame engine
operations: sanitization-stable nonempty route keys, valid date keys,
no duplicate keys, finite positive counts, and duration summaries with
integer fields in range.  States of this shape are exactly reproduced by
`normalizeStats` from their serialized image. -/

/-- A nonempty route key that is a fixed point of `sanitizeRoute`. -/
def GoodRouteKey (k : List Char) : Prop :=
  k ≠ [] ∧ sanitizeRoute (.str k) = k

/-- A finite, positive count. -/
def GoodCount (v : JNum) : Prop := ∃ q : ℚ, v = .fin q ∧ 0 < q

def GoodRoutes (m : JMap JNum) : Prop :=
  (m.map Prod.fst).Nodup ∧ ∀ kv ∈ m, GoodRouteKey kv.1 ∧ GoodCount kv.2

def GoodDaily (m : JMap (JMap JNum)) : Prop :=
  (m.map Prod.fst).Nodup ∧
  ∀ kv ∈ m, isValidDateKey kv.1 = true ∧ kv.2 ≠ [] ∧ GoodRoutes kv.2

/-- An engine-produced duration summary: integer fields with
`1 ≤ min ≤ max ≤ 24h` and `min·count ≤ totalDuration ≤ max·count`. -/
def GoodSummary (s : DurationSummary) : Prop :=
  ∃ m M c T : ℤ, s.min = .fin (m : ℚ) ∧ s.max = .fin (M : ℚ) ∧
    s.count = .fin (c : ℚ) ∧ s.totalDuration = .fin (T : ℚ) ∧
    1 ≤ m ∧ m ≤ M ∧ (M : ℚ) ≤ MAX_TRACKABLE_DURATION_MS ∧ 1 ≤ c ∧
    m * c ≤ T ∧ T ≤ M * c

def GoodSessions (m : JMap DurationSummary) : Prop :=
  (m.map Prod.fst).Nodup ∧
  ∀ kv ∈ m, isValidDateKey kv.1 = true ∧ GoodSummary kv.2

def GoodRouteDurations (m : JMap (JMap DurationSummary)) : Prop :=
  (m.map Prod.fst).Nodup ∧
  ∀ kv ∈ m, isValidDateKey kv.1 = true ∧ kv.2 ≠ [] ∧
    (kv.2.map Prod.fst).Nodup ∧ ∀ rv ∈ kv.2, GoodRouteKey rv.1 ∧ GoodSummary rv.2

def GoodStats (S : SiteStats) : Prop :=
  (∃ t : ℚ, S.total = .fin t ∧ 0 ≤ t) ∧ TotalInvariant S ∧
  GoodRoutes S.routes ∧ GoodDaily S.daily ∧ GoodSessions S.sessionDurations ∧
  GoodRouteDurations S.routeDurations

/-! # Supporting lemmas -/

theorem or0_ne_nan (x : JNum) : x.or0 ≠ JNum.nan := by
  cases x <;> simp [JNum.or0, JNum.truthy] <;> split <;> simp

/-- A value accepted by `sanitizeDurationValue` is a nonnegative integer. -/
theorem sanitizeDurationValue_some {v : JVal} {q : ℚ}
    (h : sanitizeDurationValue v = some q) : ∃ z : ℤ, q = (z : ℚ) ∧ 0 ≤ z := by
  unfold sanitizeDurationValue at h
  cases hn : jsToNumber v <;> rw [hn] at h
  case nan => simp at h
  case posInf => simp at h
  case negInf => simp at h
  case fin q0 =>
    replace h : (if q0 ≤ 0 then none
        else some (roundQ (min q0 MAX_TRACKABLE_DURATION_MS))) = some q := h
    by_cases h0 : q0 ≤ 0
    · rw [if_pos h0] at h; simp at h
    · rw [if_neg h0] at h
      refine ⟨⌊min q0 MAX_TRACKABLE_DURATION_MS + 1/2⌋, ?_, ?_⟩
      · have hq := Option.some.inj h
        rw [← hq, roundQ]
      · refine Int.floor_nonneg.mpr ?_
        have h1 : (0:ℚ) < q0 := lt_of_not_ge h0
        have h2 : (0:ℚ) < MAX_TRACKABLE_DURATION_MS := by norm_num [MAX_TRACKABLE_DURATION_MS]
        have := lt_min h1 h2
        linarith

/-- The `min`/`max` recovery step of `normalizeDurationSummary` (declared
value with average fallback) only produces nonnegative integers. -/
theorem minOrAvg_some {x y : JVal} {q : ℚ}
    (h : (match sanitizeDurationValue x with
          | some v => some v
          | none => sanitizeDurationValue y) = some q) :
    ∃ z : ℤ, q = (z : ℚ) ∧ 0 ≤ z := by
  cases hx : sanitizeDurationValue x <;> rw [hx] at h
  · exact sanitizeDurationValue_some h
  · exact Option.some.inj h ▸ sanitizeDurationValue_some hx

/-! # Claims -/

/-- **C4, counterexample.**  The persisted summary
`{count: -3, totalDuration: 5, min: 10, max: 20}` has a coerced `count`
that is non-positive (`-3 ≤ 0`), yet `normalizeDurationSummary` does *not*
drop it: `-3` is truthy, so the `!count` guard passes. -/
theorem c4_counterexample :
    JNum.leb (jsToNumber (getField (.obj [(chars "count", .num (.fin (-3))),
        (chars "totalDuration", .num (.fin 5)), (chars "min", .num (.fin 10)),
        (chars "max", .num (.fin 20))]) (chars "count"))) (.fin 0) = true ∧
    normalizeDurationSummary (.obj [(chars "count", .num (.fin (-3))),
        (chars "totalDuration", .num (.fin 5)), (chars "min", .num (.fin 10)),
        (chars "max", .num (.fin 20))]) ≠ none := by
  constructor
  · norm_num [jsToNumber, getField, chars, List.find?, JNum.leb]
  · norm_num +decide [normalizeDurationSummary, jsToNumber, getField, chars, List.find?,
      isObjTruthy, jvTruthy, typeofObject, JNum.or0, JNum.truthy, JNum.leb, JNum.div,
      JNum.mul, JNum.jround, JNum.isFinite, JNum.jmin, JNum.jmax, sanitizeDurationValue,
      roundQ, MAX_TRACKABLE_DURATION_MS, min_def, max_def]

/-- **C4 (amended).**  `normalizeDurationSummary` returns `null` whenever
the coerced `count` is *falsy* (zero or `NaN` — not every non-positive
count) or the coerced `totalDuration` is non-positive; in particular a
persisted summary with `count: 0` never survives normalization. -/
theorem c4_nonpositive_summary_rejected_amended (raw : JVal)
    (h : (jsToNumber (getField raw (chars "count"))).or0 = .fin 0 ∨
         ((jsToNumber (getField raw (chars "totalDuration"))).or0).leb (.fin 0) = true) :
    normalizeDurationSummary raw = none := by
  unfold normalizeDurationSummary
  by_cases hobj : isObjTruthy raw = true
  · rcases h with h | h
    · have ht : ((jsToNumber (getField raw (chars "count"))).or0).truthy = false := by
        rw [h]; simp [JNum.truthy]
      simp [hobj, ht]
    · simp [hobj, h]
  · simp [hobj]

/-- Witness for C4 at `{count: 0, totalDuration: 5}`. -/
theorem c4_witness :
    (jsToNumber (getField (.obj [(chars "count", .num (.fin 0)),
        (chars "totalDuration", .num (.fin 5))]) (chars "count"))).or0 = .fin 0 ∧
    normalizeDurationSummary (.obj [(chars "count", .num (.fin 0)),
        (chars "totalDuration", .num (.fin 5))]) = none := by
  have h : (jsToNumber (getField (.obj [(chars "count", .num (.fin 0)),
      (chars "totalDuration", .num (.fin 5))]) (chars "count"))).or0 = .fin 0 := by
    norm_num +decide [jsToNumber, getField, chars, List.find?, JNum.or0, JNum.truthy]
  exact ⟨h, c4_nonpositive_summary_rejected_amended _ (Or.inl h)⟩

/-- **C5, counterexample.**  On the persisted summary
`{count: -2, totalDuration: 7, min: 10, max: 20}`,
`normalizeDurationSummary` returns a non-null summary whose `count` is
`-2 < 1` and whose `totalDuration` is `-40 ≤ 0`: the claimed invariants
`count ≥ 1` and `totalDuration > 0` fail for this output. -/
theorem c5_counterexample :
    normalizeDurationSummary (.obj [(chars "count", .num (.fin (-2))),
        (chars "totalDuration", .num (.fin 7)), (chars "min", .num (.fin 10)),
        (chars "max", .num (.fin 20))]) =
      some ⟨.fin 10, .fin 20, .fin (-2), .fin (-40)⟩ ∧
    JNum.leb (.fin 1) (.fin (-2)) = false ∧
    JNum.ltb (.fin 0) (.fin (-40)) = false := by
  refine ⟨?_, by norm_num [JNum.leb], by norm_num [JNum.ltb]⟩
  norm_num +decide [normalizeDurationSummary, jsToNumber, getField, chars, List.find?,
      isObjTruthy, jvTruthy, typeofObject, JNum.or0, JNum.truthy, JNum.leb, JNum.div,
      JNum.mul, JNum.jround, JNum.isFinite, JNum.jmin, JNum.jmax, sanitizeDurationValue,
      roundQ, MAX_TRACKABLE_DURATION_MS, min_def, max_def]

/-- **C5 (amended).**  Every non-null summary returned by
`normalizeDurationSummary` has finite integer bounds `1 ≤ min ≤ max`, and
*when the coerced count is positive* (the claim's `count ≥ 1` and the
remaining invariants fail for negative or fractional persisted counts) the
stored total is clamped into `[min·count, max·count]` and is positive. -/
theorem c5_summary_invariants_amended (raw : JVal) (s : DurationSummary)
    (h : normalizeDurationSummary raw = some s) :
    ∃ lo hi : ℚ, s.min = .fin lo ∧ s.max = .fin hi ∧ 1 ≤ lo ∧ lo ≤ hi ∧
      (JNum.ltb (.fin 0) s.count = true →
        JNum.leb (JNum.mul (.fin lo) s.count) s.totalDuration = true ∧
        JNum.leb s.totalDuration (JNum.mul (.fin hi) s.count) = true ∧
        JNum.ltb (.fin 0) s.totalDuration = true) := by
  unfold normalizeDurationSummary at h
  by_cases hobj : isObjTruthy raw = true
  swap
  · simp [hobj] at h
  rw [if_neg (not_not_intro hobj)] at h
  simp only [] at h
  set c := (jsToNumber (getField raw (chars "count"))).or0 with hc
  set td := (jsToNumber (getField raw (chars "totalDuration"))).or0 with htd
  have htdnn : td ≠ JNum.nan := htd ▸ or0_ne_nan _
  split at h
  · simp at h
  next hcond =>
  push_neg at hcond
  obtain ⟨hct, hnle⟩ := hcond
  split at h
  swap
  · simp at h
  next mn mx hmn hmx =>
  split at h
  · simp at h
  next hmn0 =>
  push_neg at hmn0
  obtain ⟨hmnne, hmxne⟩ := hmn0
  obtain ⟨zmn, rfl, hzmn⟩ := minOrAvg_some hmn
  obtain ⟨zmx, rfl, hzmx⟩ := minOrAvg_some hmx
  obtain rfl := (Option.some.inj h).symm
  clear h hmn hmx
  have hmn1 : (1:ℚ) ≤ (zmn:ℚ) := by
    have h1 : zmn ≠ 0 := by exact_mod_cast hmnne
    have h2 : 1 ≤ zmn := by omega
    exact_mod_cast h2
  have hmx1 : (1:ℚ) ≤ (zmx:ℚ) := by
    have h1 : zmx ≠ 0 := by exact_mod_cast hmxne
    have h2 : 1 ≤ zmx := by omega
    exact_mod_cast h2
  refine ⟨min (zmn:ℚ) (zmx:ℚ), max (zmn:ℚ) (zmx:ℚ), rfl, rfl,
    le_min hmn1 hmx1, min_le_max, ?_⟩
  intro hpos
  dsimp only at hpos ⊢
  set lo := min (zmn:ℚ) (zmx:ℚ) with hlo
  set hi := max (zmn:ℚ) (zmx:ℚ) with hhi
  have hlo1 : (1:ℚ) ≤ lo := le_min hmn1 hmx1
  have hlohi : lo ≤ hi := min_le_max
  have hlopos : (0:ℚ) < lo := lt_of_lt_of_le one_pos hlo1
  have hhipos : (0:ℚ) < hi := lt_of_lt_of_le hlopos hlohi
  clear_value c td
  clear hc htd
  cases c with
  | nan => simp [JNum.ltb] at hpos
  | negInf => simp [JNum.ltb] at hpos
  | posInf =>
      have hmullo : (JNum.fin lo).mul JNum.posInf = JNum.posInf := by
        simp [JNum.mul, hlopos]
      have hmulhi : (JNum.fin hi).mul JNum.posInf = JNum.posInf := by
        simp [JNum.mul, hhipos]
      rw [hmullo, hmulhi]
      split
      · simp [JNum.jmax, JNum.jmin, JNum.leb, JNum.ltb]
      next hcnd =>
        push_neg at hcnd
        obtain ⟨hfin, -⟩ := hcnd
        rcases hjr : td.jround with _ | _ | _ | r <;> rw [hjr] at hfin <;>
          (try simp [JNum.isFinite] at hfin) <;>
          simp [JNum.jmax, JNum.jmin, JNum.leb, JNum.ltb]
  | fin cq =>
      have hcq : (0:ℚ) < cq := by simpa [JNum.ltb] using hpos
      have hlc : lo * cq ≤ hi * cq := mul_le_mul_of_nonneg_right hlohi hcq.le
      have hlcpos : (0:ℚ) < lo * cq := mul_pos hlopos hcq
      have hmullo : (JNum.fin lo).mul (JNum.fin cq) = JNum.fin (lo * cq) := rfl
      have hmulhi : (JNum.fin hi).mul (JNum.fin cq) = JNum.fin (hi * cq) := rfl
      rw [hmullo, hmulhi]
      have key : ∀ t1q : ℚ,
          JNum.leb (.fin (lo * cq))
              (((JNum.fin t1q).jmax (.fin (lo * cq))).jmin (.fin (hi * cq))) = true ∧
          JNum.leb (((JNum.fin t1q).jmax (.fin (lo * cq))).jmin (.fin (hi * cq)))
              (.fin (hi * cq)) = true ∧
          JNum.ltb (.fin 0)
              (((JNum.fin t1q).jmax (.fin (lo * cq))).jmin (.fin (hi * cq))) = true := by
        intro t1q
        simp only [JNum.jmax, JNum.jmin, JNum.leb, JNum.ltb, decide_eq_true_eq]
        refine ⟨le_min (le_max_right _ _) hlc, min_le_right _ _,
          lt_min (lt_of_lt_of_le hlcpos (le_max_right _ _)) (lt_of_lt_of_le hlcpos hlc)⟩
      split
      · exact key _
      next hcnd =>
        push_neg at hcnd
        obtain ⟨hfin, -⟩ := hcnd
        rcases hjr : td.jround with _ | _ | _ | r <;> rw [hjr] at hfin <;>
          simp [JNum.isFinite] at hfin
        exact key r

/-- Witness for C5 at the well-formed summary
`{count: 2, totalDuration: 30, min: 10, max: 20}`. -/
theorem c5_witness :
    normalizeDurationSummary (.obj [(chars "count", .num (.fin 2)),
        (chars "totalDuration", .num (.fin 30)), (chars "min", .num (.fin 10)),
        (chars "max", .num (.fin 20))]) =
      some ⟨.fin 10, .fin 20, .fin 2, .fin 30⟩ ∧
    (∃ lo hi : ℚ, (DurationSummary.mk (.fin 10) (.fin 20) (.fin 2) (.fin 30)).min = .fin lo ∧
      (DurationSummary.mk (.fin 10) (.fin 20) (.fin 2) (.fin 30)).max = .fin hi ∧
      1 ≤ lo ∧ lo ≤ hi ∧
      (JNum.ltb (.fin 0) (DurationSummary.mk (.fin 10) (.fin 20) (.fin 2) (.fin 30)).count = true →
        JNum.leb (JNum.mul (.fin lo) (DurationSummary.mk (.fin 10) (.fin 20) (.fin 2) (.fin 30)).count)
          (DurationSummary.mk (.fin 10) (.fin 20) (.fin 2) (.fin 30)).totalDuration = true ∧
        JNum.leb (DurationSummary.mk (.fin 10) (.fin 20) (.fin 2) (.fin 30)).totalDuration
          (JNum.mul (.fin hi) (DurationSummary.mk (.fin 10) (.fin 20) (.fin 2) (.fin 30)).count) = true ∧
        JNum.ltb (.fin 0) (DurationSummary.mk (.fin 10) (.fin 20) (.fin 2) (.fin 30)).totalDuration = true)) := by
  have h : normalizeDurationSummary (.obj [(chars "count", .num (.fin 2)),
      (chars "totalDuration", .num (.fin 30)), (chars "min", .num (.fin 10)),
      (chars "max", .num (.fin 20))]) = some ⟨.fin 10, .fin 20, .fin 2, .fin 30⟩ := by
    norm_num +decide [normalizeDurationSummary, jsToNumber, getField, chars, List.find?,
      isObjTruthy, jvTruthy, typeofObject, JNum.or0, JNum.truthy, JNum.leb, JNum.div,
      JNum.mul, JNum.jround, JNum.isFinite, JNum.jmin, JNum.jmax, sanitizeDurationValue,
      roundQ, MAX_TRACKABLE_DURATION_MS, min_def, max_def]
  exact ⟨h, c5_summary_invariants_amended _ _ h⟩

/-- **C7, counterexample.**  `durationMs = 0.25` coerces to a finite
positive number, so under the claim's characterization of the sanitizer
contract it must be accepted and recorded — but the sanitizer returns the
*truthy-check-failing* value `0` (not `null`), and the handler's
`if (!durationMs)` guard rejects the request. -/
theorem c7_counterexample :
    jsToNumber (.num (.fin (1/4))) = .fin (1/4) ∧ (0 : ℚ) < 1/4 ∧
    sanitizeDurationValue (.num (.fin (1/4))) = some 0 ∧
    durationRequestAccepted (.num (.fin (1/4))) = false := by
  refine ⟨rfl, by norm_num, ?_, ?_⟩
  · norm_num [sanitizeDurationValue, jsToNumber, roundQ, MAX_TRACKABLE_DURATION_MS, min_def]
  · norm_num [durationRequestAccepted, sanitizeDurationValue, jsToNumber, roundQ,
      MAX_TRACKABLE_DURATION_MS, min_def]

/-- **C7 (amended).**  The duration-recording endpoint accepts `durationMs`
iff its numeric coercion is finite and at least `0.5` ms: non-finite and
non-positive values are rejected as the claim says, but so are positive
values below half a millisecond, which round to the falsy `0`. -/
theorem c7_duration_validation_amended (durationVal : JVal) :
    durationRequestAccepted durationVal = true ↔
      ∃ q : ℚ, jsToNumber durationVal = .fin q ∧ 1/2 ≤ q := by
  have hM : (1:ℚ)/2 ≤ MAX_TRACKABLE_DURATION_MS := by norm_num [MAX_TRACKABLE_DURATION_MS]
  have hMpos : (0:ℚ) < MAX_TRACKABLE_DURATION_MS := by norm_num [MAX_TRACKABLE_DURATION_MS]
  unfold durationRequestAccepted sanitizeDurationValue
  cases hn : jsToNumber durationVal with
  | nan => simp
  | posInf => simp
  | negInf => simp
  | fin q =>
      have hRHS : (∃ q' : ℚ, JNum.fin q = .fin q' ∧ 1/2 ≤ q') ↔ 1/2 ≤ q := by
        constructor
        · rintro ⟨q', hq, hle⟩
          obtain rfl : q = q' := by injection hq
          exact hle
        · intro hle; exact ⟨q, rfl, hle⟩
      rw [hRHS]
      show (match (if q ≤ 0 then none else some (roundQ (min q MAX_TRACKABLE_DURATION_MS))) with
            | some d => decide (d ≠ 0) | none => false) = true ↔ 1/2 ≤ q
      by_cases h0 : q ≤ 0
      · rw [if_pos h0]
        constructor
        · intro hF; exact absurd hF (by simp)
        · intro hle; exfalso; linarith
      · rw [if_neg h0]
        have h0' : (0:ℚ) < q := lt_of_not_ge h0
        have hx : (0:ℚ) < min q MAX_TRACKABLE_DURATION_MS := lt_min h0' hMpos
        show (decide (roundQ (min q MAX_TRACKABLE_DURATION_MS) ≠ 0)) = true ↔ 1/2 ≤ q
        simp only [decide_eq_true_eq]
        rw [roundQ]
        constructor
        · intro hne
          by_contra hlt
          push_neg at hlt
          apply hne
          have h1 : min q MAX_TRACKABLE_DURATION_MS < 1/2 :=
            lt_of_le_of_lt (min_le_left _ _) hlt
          have hz : ⌊min q MAX_TRACKABLE_DURATION_MS + 1/2⌋ = 0 := by
            apply Int.floor_eq_zero_iff.mpr
            exact Set.mem_Ico.mpr ⟨by linarith, by linarith⟩
          rw [hz]; norm_num
        · intro hge hzero
          have h1 : (1:ℚ)/2 ≤ min q MAX_TRACKABLE_DURATION_MS := le_min hge hM
          have h2 : (1:ℤ) ≤ ⌊min q MAX_TRACKABLE_DURATION_MS + 1/2⌋ := by
            apply Int.le_floor.mpr; push_cast; linarith
          have h3 : ⌊min q MAX_TRACKABLE_DURATION_MS + 1/2⌋ = 0 := by exact_mod_cast hzero
          omega

/-- **C10.**  A falsy range identifier (missing, empty, `null`, …) resolves
to the `week` preset: `resolveRangeKey` returns `'week'` for every falsy
input, and the daily endpoint's `resolveRangeKey(req.query.range || 'week')`
therefore succeeds with the 7-day range instead of an invalid-range error. -/
theorem c10_falsy_range_defaults_week (rawRange : JVal)
    (h : jvTruthy rawRange = false) :
    resolveRangeKey rawRange = some (chars "week") ∧
    dailyRangeResolve rawRange = some (chars "week") ∧
    RANGE_PRESETS (chars "week") = some 7 := by
  refine ⟨?_, ?_, by decide⟩
  · simp [resolveRangeKey, h]
  · simp [dailyRangeResolve, h]
    decide

/-- Witness for C10 at the missing query parameter (`undefined`). -/
theorem c10_witness :
    jvTruthy .undef = false ∧
    (resolveRangeKey .undef = some (chars "week") ∧
     dailyRangeResolve .undef = some (chars "week") ∧
     RANGE_PRESETS (chars "week") = some 7) :=
  ⟨rfl, c10_falsy_range_defaults_week .undef rfl⟩

/-- Membership in a pruned date map: exactly the entries whose key has a
finite timestamp at or after the cutoff survive. -/
theorem mem_pruneDateMap {α : Type} (m : JMap α) (cutoff : Int) (k : List Char) (v : α) :
    (k, v) ∈ pruneDateMap m cutoff ↔
      (k, v) ∈ m ∧ ∃ ts, getTimestampForDateKey k = some ts ∧ cutoff ≤ ts := by
  simp only [pruneDateMap, List.mem_filter]
  constructor
  · rintro ⟨hm, hp⟩
    refine ⟨hm, ?_⟩
    cases ht : getTimestampForDateKey k with
    | none => rw [ht] at hp; simp at hp
    | some ts =>
        rw [ht] at hp
        exact ⟨ts, rfl, by simpa using hp⟩
  · rintro ⟨hm, ts, hts, hle⟩
    exact ⟨hm, by rw [hts]; simpa using hle⟩

/-- With a valid today key, `pruneDailyStats` filters all three dated maps
at the cutoff `today − 365 · dayMs` (`= today − (366 − 1) · dayMs`). -/
theorem pruneDailyStats_eq (stats : SiteStats) (ref : Int) (todayTs : Int)
    (h : getTimestampForDateKey (getTodayKey ref) = some todayTs) :
    pruneDailyStats stats ref =
      { stats with
        daily := pruneDateMap stats.daily (todayTs - 365 * DAY_IN_MS)
        sessionDurations := pruneDateMap stats.sessionDurations (todayTs - 365 * DAY_IN_MS)
        routeDurations := pruneDateMap stats.routeDurations (todayTs - 365 * DAY_IN_MS) } := by
  unfold pruneDailyStats
  rw [h]
  norm_num [MAX_DAILY_HISTORY_DAYS]

/-- **C6.**  For every stats object and reference instant with a valid
today key, pruning keeps exactly the entries of `daily`,
`sessionDurations` and `routeDurations` whose date key's timestamp is
finite and at least today's timestamp minus 365 days (deleting invalid or
older keys), and in particular retains every entry exactly 365 days before
today — the boundary day. -/
theorem c6_prune_retention (stats : SiteStats) (ref : Int) (todayTs : Int)
    (h : getTimestampForDateKey (getTodayKey ref) = some todayTs) :
    (∀ k (v : JMap JNum), (k, v) ∈ (pruneDailyStats stats ref).daily ↔
        (k, v) ∈ stats.daily ∧
          ∃ ts, getTimestampForDateKey k = some ts ∧ todayTs - 365 * DAY_IN_MS ≤ ts) ∧
    (∀ k (v : DurationSummary), (k, v) ∈ (pruneDailyStats stats ref).sessionDurations ↔
        (k, v) ∈ stats.sessionDurations ∧
          ∃ ts, getTimestampForDateKey k = some ts ∧ todayTs - 365 * DAY_IN_MS ≤ ts) ∧
    (∀ k (v : JMap DurationSummary), (k, v) ∈ (pruneDailyStats stats ref).routeDurations ↔
        (k, v) ∈ stats.routeDurations ∧
          ∃ ts, getTimestampForDateKey k = some ts ∧ todayTs - 365 * DAY_IN_MS ≤ ts) ∧
    (∀ k (v : JMap JNum), (k, v) ∈ stats.daily →
        getTimestampForDateKey k = some (todayTs - 365 * DAY_IN_MS) →
        (k, v) ∈ (pruneDailyStats stats ref).daily) := by
  rw [pruneDailyStats_eq stats ref todayTs h]
  refine ⟨fun k v => mem_pruneDateMap _ _ _ _,
          fun k v => mem_pruneDateMap _ _ _ _,
          fun k v => mem_pruneDateMap _ _ _ _,
          fun k v hm hts => (mem_pruneDateMap _ _ _ _).mpr ⟨hm, _, hts, le_refl _⟩⟩

/-- Witness for C6 at the epoch instant (Colombian day `1969-12-31`). -/
theorem c6_witness :
    getTimestampForDateKey (getTodayKey 0) = some (-68400000) ∧
    (∀ k (v : JMap JNum),
      (k, v) ∈ (pruneDailyStats ⟨.fin 0, [],
          [(chars "1969-01-01", []), (chars "1950-01-01", [])], [], []⟩ 0).daily ↔
      (k, v) ∈ (SiteStats.mk (.fin 0) []
          [(chars "1969-01-01", []), (chars "1950-01-01", [])] [] []).daily ∧
        ∃ ts, getTimestampForDateKey k = some ts ∧ -68400000 - 365 * DAY_IN_MS ≤ ts) :=
  ⟨by decide, (c6_prune_retention _ 0 (-68400000) (by decide)).1⟩

theorem mem_insertSortedByTs (e x : List Char × JMap JNum × Int)
    (l : List (List Char × JMap JNum × Int)) :
    x ∈ insertSortedByTs e l ↔ x = e ∨ x ∈ l := by
  induction l with
  | nil => simp [insertSortedByTs]
  | cons y ys ih =>
      unfold insertSortedByTs
      by_cases hc : e.2.2 ≤ y.2.2
      · simp [hc]
      · simp only [if_neg hc, List.mem_cons, ih]
        tauto

theorem mem_sortByTs (x : List Char × JMap JNum × Int)
    (l : List (List Char × JMap JNum × Int)) :
    x ∈ sortByTs l ↔ x ∈ l := by
  induction l with
  | nil => simp [sortByTs]
  | cons y ys ih =>
      unfold sortByTs
      rw [mem_insertSortedByTs, ih]
      simp

theorem sorted_insertSortedByTs (e : List Char × JMap JNum × Int)
    (l : List (List Char × JMap JNum × Int))
    (hl : l.Pairwise (fun a b => a.2.2 ≤ b.2.2)) :
    (insertSortedByTs e l).Pairwise (fun a b => a.2.2 ≤ b.2.2) := by
  induction l with
  | nil => simp [insertSortedByTs]
  | cons y ys ih =>
      rw [List.pairwise_cons] at hl
      obtain ⟨hy, hys⟩ := hl
      unfold insertSortedByTs
      by_cases hc : e.2.2 ≤ y.2.2
      · rw [if_pos hc]
        refine List.Pairwise.cons ?_ (List.Pairwise.cons hy hys)
        intro z hz
        rcases List.mem_cons.mp hz with rfl | hz
        · exact hc
        · exact le_trans hc (hy z hz)
      · rw [if_neg hc]
        refine List.Pairwise.cons ?_ (ih hys)
        intro z hz
        rcases (mem_insertSortedByTs e z ys).mp hz with rfl | hz
        · exact le_of_not_le hc
        · exact hy z hz

theorem sorted_sortByTs (l : List (List Char × JMap JNum × Int)) :
    (sortByTs l).Pairwise (fun a b => a.2.2 ≤ b.2.2) := by
  induction l with
  | nil => simp [sortByTs]
  | cons y ys ih => exact sorted_insertSortedByTs y (sortByTs ys) ih

theorem RANGE_PRESETS_pos {k : List Char} {d : ℕ} (h : RANGE_PRESETS k = some d) :
    1 ≤ d := by
  unfold RANGE_PRESETS at h
  split_ifs at h <;> (injection h with h; omega)

/-- With a resolvable range key and a valid today key, `collectDailyVisits`
is the sorted projection of the in-range daily entries. -/
theorem collectDailyVisits_eq (stats : SiteStats) (rangeKey : List Char) (ref : Int)
    (days : ℕ) (todayTs : Int)
    (hd : RANGE_PRESETS rangeKey = some days)
    (ht : getTimestampForDateKey (getTodayKey ref) = some todayTs) :
    collectDailyVisits stats rangeKey ref =
      some ((sortByTs (stats.daily.filterMap (fun kv =>
          match getTimestampForDateKey kv.1 with
          | some ts =>
              if todayTs - ((days : Int) - 1) * DAY_IN_MS ≤ ts then some (kv.1, kv.2, ts)
              else none
          | none => none))).map (fun e => ⟨e.1, e.2.1, sumValues e.2.1⟩)) := by
  unfold collectDailyVisits
  rw [hd, ht]
  dsimp only
  by_cases hempty : stats.daily.isEmpty
  · rw [if_pos hempty]
    have hnil : stats.daily = [] := List.isEmpty_iff.mp hempty
    rw [hnil]
    rfl
  · rw [if_neg hempty]

/-- **C8.**  For every stats object and resolvable range key of `d` days
(with a valid today key), the range query returns exactly the daily entries
whose date key has a finite timestamp `≥ today − (d−1)·dayMs`, sorted
ascending by that timestamp, each projected to its date, a copy of its
routes, and a total equal to the sum of the day's route counts. -/
theorem c8_range_query_exact (stats : SiteStats) (rangeKey : List Char) (ref : Int)
    (days : ℕ) (todayTs : Int)
    (hd : RANGE_PRESETS rangeKey = some days)
    (ht : getTimestampForDateKey (getTodayKey ref) = some todayTs) :
    ∃ l, collectDailyVisits stats rangeKey ref = some l ∧
      (∀ (k : List Char) (v : JMap JNum),
        ((k, v) ∈ stats.daily ∧ ∃ ts, getTimestampForDateKey k = some ts ∧
            todayTs - ((days : Int) - 1) * DAY_IN_MS ≤ ts) ↔
          ∃ e ∈ l, e.date = k ∧ e.routes = v ∧ e.total = sumValues v) ∧
      l.Pairwise (fun a b => ∀ ta tb, getTimestampForDateKey a.date = some ta →
          getTimestampForDateKey b.date = some tb → ta ≤ tb) := by
  refine ⟨_, collectDailyVisits_eq stats rangeKey ref days todayTs hd ht, ?_, ?_⟩
  · intro k v
    constructor
    · rintro ⟨hm, ts, hts, hle⟩
      refine ⟨⟨k, v, sumValues v⟩, ?_, rfl, rfl, rfl⟩
      refine List.mem_map.mpr ⟨(k, v, ts), ?_, rfl⟩
      rw [mem_sortByTs]
      refine List.mem_filterMap.mpr ⟨(k, v), hm, ?_⟩
      dsimp only
      rw [hts]
      show (if todayTs - ((days : Int) - 1) * DAY_IN_MS ≤ ts
          then some (k, v, ts) else none) = some (k, v, ts)
      rw [if_pos hle]
    · rintro ⟨e, he, hdate, hroutes, htotal⟩
      obtain ⟨t3, ht3, rfl⟩ := List.mem_map.mp he
      rw [mem_sortByTs] at ht3
      obtain ⟨kv, hkv, hf⟩ := List.mem_filterMap.mp ht3
      obtain ⟨k0, v0⟩ := kv
      dsimp only at hf hdate hroutes
      cases hts : getTimestampForDateKey k0 <;> rw [hts] at hf
      · simp at hf
      next ts =>
        replace hf : (if todayTs - ((days : Int) - 1) * DAY_IN_MS ≤ ts
            then some (k0, v0, ts) else none) = some t3 := hf
        by_cases hle : todayTs - ((days : Int) - 1) * DAY_IN_MS ≤ ts
        · rw [if_pos hle] at hf
          obtain rfl := (Option.some.inj hf).symm
          dsimp only at hdate hroutes
          subst hdate
          subst hroutes
          exact ⟨hkv, ts, hts, hle⟩
        · rw [if_neg hle] at hf
          simp at hf
  · rw [List.pairwise_map]
    have hts_of_mem : ∀ x ∈ sortByTs (stats.daily.filterMap (fun kv =>
        match getTimestampForDateKey kv.1 with
        | some ts =>
            if todayTs - ((days : Int) - 1) * DAY_IN_MS ≤ ts then some (kv.1, kv.2, ts)
            else none
        | none => none)), getTimestampForDateKey x.1 = some x.2.2 := by
      intro x hx
      rw [mem_sortByTs] at hx
      obtain ⟨kv, hkv, hf⟩ := List.mem_filterMap.mp hx
      obtain ⟨k0, v0⟩ := kv
      dsimp only at hf
      cases hts : getTimestampForDateKey k0 <;> rw [hts] at hf
      · simp at hf
      next ts =>
        replace hf : (if todayTs - ((days : Int) - 1) * DAY_IN_MS ≤ ts
            then some (k0, v0, ts) else none) = some x := hf
        by_cases hle : todayTs - ((days : Int) - 1) * DAY_IN_MS ≤ ts
        · rw [if_pos hle] at hf
          obtain rfl := (Option.some.inj hf).symm
          exact hts
        · rw [if_neg hle] at hf
          simp at hf
    refine List.Pairwise.imp_of_mem ?_ (sorted_sortByTs _)
    intro a b hma hmb hab ta tb hta htb
    have ha := hts_of_mem a hma
    have hb := hts_of_mem b hmb
    dsimp only at hta htb
    rw [ha] at hta
    rw [hb] at htb
    obtain rfl := Option.some.inj hta
    obtain rfl := Option.some.inj htb
    exact hab

/-- Witness for C8 at a one-day history queried over `week` from the epoch
instant. -/
theorem c8_witness :
    RANGE_PRESETS (chars "week") = some 7 ∧
    getTimestampForDateKey (getTodayKey 0) = some (-68400000) ∧
    (∃ l, collectDailyVisits ⟨.fin 0, [], [(chars "1969-12-30", [])], [], []⟩
        (chars "week") 0 = some l ∧
      (∀ (k : List Char) (v : JMap JNum),
        ((k, v) ∈ (SiteStats.mk (.fin 0) [] [(chars "1969-12-30", [])] [] []).daily ∧
          ∃ ts, getTimestampForDateKey k = some ts ∧
            -68400000 - ((7 : Int) - 1) * DAY_IN_MS ≤ ts) ↔
          ∃ e ∈ l, e.date = k ∧ e.routes = v ∧ e.total = sumValues v) ∧
      l.Pairwise (fun a b => ∀ ta tb, getTimestampForDateKey a.date = some ta →
          getTimestampForDateKey b.date = some tb → ta ≤ tb)) :=
  ⟨by decide, by decide,
    c8_range_query_exact ⟨.fin 0, [], [(chars "1969-12-30", [])], [], []⟩ (chars "week") 0 7
      (-68400000) (by decide) (by decide)⟩

/-- **C9.**  The range-query filter has no upper bound: with any resolvable
range preset and valid today key, a daily entry whose date key's timestamp
is strictly greater than today's timestamp still appears in the result, so
a "last N days" query can return future-dated days. -/
theorem c9_future_dates_included (stats : SiteStats) (rangeKey : List Char) (ref : Int)
    (days : ℕ) (todayTs ts : Int) (k : List Char) (v : JMap JNum)
    (hd : RANGE_PRESETS rangeKey = some days)
    (ht : getTimestampForDateKey (getTodayKey ref) = some todayTs)
    (hm : (k, v) ∈ stats.daily)
    (hts : getTimestampForDateKey k = some ts)
    (hfuture : todayTs < ts) :
    ∃ l, collectDailyVisits stats rangeKey ref = some l ∧
      ∃ e ∈ l, e.date = k ∧ e.routes = v ∧ e.total = sumValues v := by
  refine ⟨_, collectDailyVisits_eq stats rangeKey ref days todayTs hd ht, ?_⟩
  have hdays : 1 ≤ days := RANGE_PRESETS_pos hd
  have hle : todayTs - ((days : Int) - 1) * DAY_IN_MS ≤ ts := by
    have h0 : (0:Int) ≤ (days : Int) - 1 := by
      have : (1:Int) ≤ (days : Int) := by exact_mod_cast hdays
      omega
    have h1 : (0:Int) ≤ ((days : Int) - 1) * DAY_IN_MS :=
      mul_nonneg h0 (by norm_num [DAY_IN_MS])
    linarith
  refine ⟨⟨k, v, sumValues v⟩, ?_, rfl, rfl, rfl⟩
  refine List.mem_map.mpr ⟨(k, v, ts), ?_, rfl⟩
  rw [mem_sortByTs]
  refine List.mem_filterMap.mpr ⟨(k, v), hm, ?_⟩
  dsimp only
  rw [hts]
  show (if todayTs - ((days : Int) - 1) * DAY_IN_MS ≤ ts
      then some (k, v, ts) else none) = some (k, v, ts)
  rw [if_pos hle]

/-- Witness for C9: a `2099-01-01` entry is returned by a `week` query run
at the epoch instant. -/
theorem c9_witness :
    (chars "2099-01-01", ([] : JMap JNum)) ∈
        (SiteStats.mk (.fin 0) [] [(chars "2099-01-01", [])] [] []).daily ∧
    getTimestampForDateKey (chars "2099-01-01") = some 4070926800000 ∧
    ((-68400000 : Int) < 4070926800000) ∧
    (∃ l, collectDailyVisits ⟨.fin 0, [], [(chars "2099-01-01", [])], [], []⟩
        (chars "week") 0 = some l ∧
      ∃ e ∈ l, e.date = chars "2099-01-01" ∧ e.routes = ([] : JMap JNum) ∧
        e.total = sumValues ([] : JMap JNum)) :=
  ⟨by decide, by decide, by decide,
    c9_future_dates_included ⟨.fin 0, [], [(chars "2099-01-01", [])], [], []⟩
      (chars "week") 0 7 (-68400000) 4070926800000 (chars "2099-01-01") []
      (by decide) (by decide) (by decide) (by decide) (by decide)⟩

namespace JNum

lemma posVal_nnegVal {v : JNum} (h : v.PosVal) : v.NnegVal := by
  cases v <;> simp_all [PosVal, NnegVal] <;> linarith

lemma posVal_truthy {v : JNum} (h : v.PosVal) : v.truthy = true := by
  cases v with
  | nan => exact absurd h (by simp [PosVal])
  | posInf => rfl
  | negInf => rfl
  | fin q =>
      have hq : (0:ℚ) < q := h
      simp [truthy]
      exact ne_of_gt hq

lemma posVal_ne_nan {v : JNum} (h : v.PosVal) : v ≠ nan := by
  cases v <;> simp_all [PosVal]

lemma nnegVal_ne_nan {v : JNum} (h : v.NnegVal) : v ≠ nan := by
  cases v <;> simp_all [NnegVal]

lemma nnegVal_add {a b : JNum} (ha : a.NnegVal) (hb : b.NnegVal) :
    (a.add b).NnegVal := by
  cases a <;> cases b <;> simp_all [NnegVal, add] <;> linarith

lemma nnegVal_add_posVal {a b : JNum} (ha : a.NnegVal) (hb : b.PosVal) :
    (a.add b).PosVal := by
  cases a <;> cases b <;> simp_all [NnegVal, PosVal, add]
  linarith

lemma add_zero_left {a : JNum} (ha : a ≠ nan) : (fin 0).add a = a := by
  cases a <;> simp_all [add]

lemma add_comm_j (a b : JNum) : a.add b = b.add a := by
  cases a <;> cases b <;> simp [add]
  ring

lemma add_assoc_nneg {a b c : JNum} (ha : a.NnegVal) (hb : b.NnegVal) (hc : c.NnegVal) :
    (a.add b).add c = a.add (b.add c) := by
  cases a <;> cases b <;> cases c <;> simp_all [NnegVal, add]
  ring

lemma leb_refl {a : JNum} (ha : a ≠ nan) : a.leb a = true := by
  cases a <;> simp_all [leb]

lemma leb_add_one {a b : JNum} (h : a.leb b = true) :
    (a.add (fin 1)).leb (b.add (fin 1)) = true := by
  cases a <;> cases b <;> simp_all [leb, add] <;> linarith

lemma leb_of_not_ltb {a b : JNum} (hfin : a.isFinite = true) (hb : b ≠ nan)
    (h : a.ltb b = false) : b.leb a = true := by
  cases a <;> cases b <;> simp_all [isFinite, ltb, leb] <;> linarith

end JNum

lemma jget_cons {α : Type} (k0 : List Char) (v0 : α) (ys : JMap α) (r : List Char) :
    jget ((k0, v0) :: ys) r = if k0 = r then some v0 else jget ys r := rfl

lemma jset_cons {α : Type} (k0 : List Char) (v0 : α) (ys : JMap α) (r : List Char) (v : α) :
    jset ((k0, v0) :: ys) r v =
      if k0 = r then (r, v) :: ys else (k0, v0) :: jset ys r v := rfl

lemma mem_jset {α : Type} {m : JMap α} {r : List Char} {v : α} {kv : List Char × α}
    (h : kv ∈ jset m r v) : kv ∈ m ∨ kv = (r, v) := by
  induction m with
  | nil =>
      simp [jset] at h
      exact Or.inr h
  | cons y ys ih =>
      obtain ⟨k0, v0⟩ := y
      rw [jset_cons] at h
      by_cases hc : k0 = r
      · rw [if_pos hc] at h
        rcases List.mem_cons.mp h with rfl | h
        · exact Or.inr rfl
        · exact Or.inl (List.mem_cons_of_mem _ h)
      · rw [if_neg hc] at h
        rcases List.mem_cons.mp h with rfl | h
        · exact Or.inl (List.mem_cons_self _ _)
        · rcases ih h with h2 | h2
          · exact Or.inl (List.mem_cons_of_mem _ h2)
          · exact Or.inr h2

lemma jget_mem {α : Type} {m : JMap α} {r : List Char} {v : α}
    (h : jget m r = some v) : (r, v) ∈ m := by
  induction m with
  | nil => simp [jget] at h
  | cons y ys ih =>
      obtain ⟨k0, v0⟩ := y
      rw [jget_cons] at h
      by_cases hc : k0 = r
      · rw [if_pos hc] at h
        obtain rfl := Option.some.inj h
        rw [← hc]
        exact List.mem_cons_self _ _
      · rw [if_neg hc] at h
        exact List.mem_cons_of_mem _ (ih h)

lemma jset_of_jget_none {α : Type} {m : JMap α} {r : List Char} (v : α)
    (h : jget m r = none) : jset m r v = m ++ [(r, v)] := by
  induction m with
  | nil => rfl
  | cons y ys ih =>
      obtain ⟨k0, v0⟩ := y
      rw [jget_cons] at h
      by_cases hc : k0 = r
      · rw [if_pos hc] at h; simp at h
      · rw [if_neg hc] at h
        rw [jset_cons, if_neg hc, ih h]
        rfl

lemma foldl_add_nnegVal (m : JMap JNum) (a : JNum) (ha : a.NnegVal)
    (hm : ∀ kv ∈ m, JNum.NnegVal kv.2) :
    JNum.NnegVal (m.foldl (fun s kv => s.add kv.2) a) := by
  induction m generalizing a with
  | nil => simpa
  | cons y ys ih =>
      exact ih _ (JNum.nnegVal_add ha (hm y (List.mem_cons_self _ _)))
        (fun kv hkv => hm kv (List.mem_cons_of_mem _ hkv))

lemma sumValues_nnegVal (m : JMap JNum) (hm : ∀ kv ∈ m, JNum.NnegVal kv.2) :
    JNum.NnegVal (sumValues m) :=
  foldl_add_nnegVal m _ (by simp [JNum.NnegVal]) hm

lemma foldl_add_shift (m : JMap JNum) (a : JNum) (ha : a.NnegVal)
    (hm : ∀ kv ∈ m, JNum.NnegVal kv.2) :
    m.foldl (fun s kv => s.add kv.2) a = a.add (sumValues m) := by
  induction m generalizing a with
  | nil =>
      rw [show sumValues [] = .fin 0 from rfl]
      rw [JNum.add_comm_j, JNum.add_zero_left (JNum.nnegVal_ne_nan ha)]
      rfl
  | cons y ys ih =>
      have hy : JNum.NnegVal y.2 := hm y (List.mem_cons_self _ _)
      have hys : ∀ kv ∈ ys, JNum.NnegVal kv.2 :=
        fun kv hkv => hm kv (List.mem_cons_of_mem _ hkv)
      have hSys : JNum.NnegVal (sumValues ys) := sumValues_nnegVal ys hys
      have hcons : sumValues (y :: ys) = y.2.add (sumValues ys) := by
        rw [show sumValues (y :: ys) = ys.foldl (fun s kv => s.add kv.2) ((JNum.fin 0).add y.2) from rfl]
        rw [ih _ (JNum.nnegVal_add (by simp [JNum.NnegVal]) hy) hys]
        rw [JNum.add_zero_left (JNum.nnegVal_ne_nan hy)]
      rw [show (y :: ys).foldl (fun s kv => s.add kv.2) a = ys.foldl (fun s kv => s.add kv.2) (a.add y.2) from rfl]
      rw [ih _ (JNum.nnegVal_add ha hy) hys, hcons]
      exact JNum.add_assoc_nneg ha hy hSys

lemma sumValues_cons (y : List Char × JNum) (ys : JMap JNum)
    (hy : JNum.NnegVal y.2) (hys : ∀ kv ∈ ys, JNum.NnegVal kv.2) :
    sumValues (y :: ys) = y.2.add (sumValues ys) := by
  rw [show sumValues (y :: ys) = ys.foldl (fun s kv => s.add kv.2) ((JNum.fin 0).add y.2) from rfl]
  rw [foldl_add_shift ys _ (JNum.nnegVal_add (by simp [JNum.NnegVal]) hy) hys]
  rw [JNum.add_zero_left (JNum.nnegVal_ne_nan hy)]

lemma sumValues_append_single (m : JMap JNum) (r : List Char) (v : JNum) :
    sumValues (m ++ [(r, v)]) = (sumValues m).add v := by
  unfold sumValues
  rw [List.foldl_append]
  rfl

lemma sumValues_jset_add_one (m : JMap JNum) (r : List Char) (v : JNum)
    (hget : jget m r = some v) (hm : ∀ kv ∈ m, JNum.NnegVal kv.2) :
    sumValues (jset m r (v.add (.fin 1))) = (sumValues m).add (.fin 1) := by
  induction m with
  | nil => simp [jget] at hget
  | cons y ys ih =>
      obtain ⟨k0, v0⟩ := y
      have hv0 : JNum.NnegVal v0 := hm (k0, v0) (List.mem_cons_self _ _)
      have hys : ∀ kv ∈ ys, JNum.NnegVal kv.2 :=
        fun kv hkv => hm kv (List.mem_cons_of_mem _ hkv)
      have hSys : JNum.NnegVal (sumValues ys) := sumValues_nnegVal ys hys
      rw [jget_cons] at hget
      by_cases hc : k0 = r
      · rw [if_pos hc] at hget
        obtain rfl := Option.some.inj hget
        rw [jset_cons, if_pos hc]
        have h1 : JNum.NnegVal (v0.add (.fin 1)) :=
          JNum.nnegVal_add hv0 (by simp [JNum.NnegVal])
        rw [sumValues_cons (r, v0.add (.fin 1)) ys h1 hys]
        rw [sumValues_cons (k0, v0) ys hv0 hys]
        show (v0.add (.fin 1)).add (sumValues ys) = (v0.add (sumValues ys)).add (.fin 1)
        rw [JNum.add_assoc_nneg hv0 (by simp [JNum.NnegVal]) hSys]
        rw [JNum.add_assoc_nneg hv0 hSys (by simp [JNum.NnegVal])]
        rw [JNum.add_comm_j (JNum.fin 1) (sumValues ys)]
      · rw [if_neg hc] at hget
        have hv : JNum.NnegVal v := hm (r, v) (List.mem_cons_of_mem _ (jget_mem hget))
        rw [jset_cons, if_neg hc]
        have hjs : ∀ kv ∈ jset ys r (v.add (.fin 1)), JNum.NnegVal kv.2 := by
          intro kv hkv
          rcases mem_jset hkv with h2 | h2
          · exact hys kv h2
          · rw [h2]
            exact JNum.nnegVal_add hv (by simp [JNum.NnegVal])
        rw [sumValues_cons (k0, v0) (jset ys r (v.add (.fin 1))) hv0 hjs]
        rw [ih hget hys]
        rw [sumValues_cons (k0, v0) ys hv0 hys]
        show v0.add ((sumValues ys).add (.fin 1)) = (v0.add (sumValues ys)).add (.fin 1)
        rw [JNum.add_assoc_nneg hv0 hSys (by simp [JNum.NnegVal])]

lemma ltb_zero_posVal {v : JNum} (h : JNum.ltb (.fin 0) v = true) : v.PosVal := by
  cases v <;> simp_all [JNum.ltb, JNum.PosVal]

lemma accumulateRouteCounts_posVal (l : List (List Char × JVal)) (acc : JMap JNum)
    (hacc : RoutesPosVal acc) : RoutesPosVal (accumulateRouteCounts acc l) := by
  induction l generalizing acc with
  | nil => simpa [accumulateRouteCounts]
  | cons y ys ih =>
      obtain ⟨rn, rv⟩ := y
      rw [show accumulateRouteCounts acc ((rn, rv) :: ys) =
          (if JNum.ltb (.fin 0) ((jsToNumber rv).or0) &&
              !(sanitizeRoute (.str rn)).isEmpty then
            accumulateRouteCounts
              (jset acc (sanitizeRoute (.str rn))
                ((jnumValOr0 (jget acc (sanitizeRoute (.str rn)))).add
                  ((jsToNumber rv).or0))) ys
          else accumulateRouteCounts acc ys) from rfl]
      split
      next hc =>
        rw [Bool.and_eq_true] at hc
        apply ih
        intro kv hkv
        rcases mem_jset hkv with h2 | h2
        · exact hacc kv h2
        · rw [h2]
          have hvis : JNum.PosVal ((jsToNumber rv).or0) :=
            ltb_zero_posVal hc.1
          have hbase : JNum.NnegVal (jnumValOr0 (jget acc (sanitizeRoute (.str rn)))) := by
            cases hget : jget acc (sanitizeRoute (.str rn)) with
            | none => simp [jnumValOr0, JNum.NnegVal]
            | some w =>
                have hw : JNum.PosVal w := hacc _ (jget_mem hget)
                rw [show jnumValOr0 (some w) = w.or0 from rfl]
                rw [show w.or0 = if w.truthy then w else .fin 0 from rfl]
                rw [if_pos (JNum.posVal_truthy hw)]
                exact JNum.posVal_nnegVal hw
          exact JNum.nnegVal_add_posVal hbase hvis
      next hc =>
        exact ih acc hacc

lemma routesPosVal_nneg {m : JMap JNum} (h : RoutesPosVal m) :
    ∀ kv ∈ m, JNum.NnegVal kv.2 :=
  fun kv hkv => JNum.posVal_nnegVal (h kv hkv)

lemma normalizeStats_good (raw : JVal) :
    RoutesPosVal (normalizeStats raw).routes ∧ TotalInvariant (normalizeStats raw) := by
  unfold normalizeStats
  by_cases hobj : isObjTruthy raw = true
  swap
  · rw [if_pos (by simp [hobj])]
    constructor
    · intro kv hkv
      simp [createEmptyStats] at hkv
    · show (sumValues createEmptyStats.routes).leb createEmptyStats.total = true
      simp [createEmptyStats, sumValues, JNum.leb]
  · rw [if_neg (not_not_intro hobj)]
    simp only []
    set nr := (match getField raw (chars "routes") with
      | JVal.obj routeFields => accumulateRouteCounts [] routeFields
      | _ => ([] : JMap JNum)) with hnr
    have hnr_pos : RoutesPosVal nr := by
      rw [hnr]
      cases getField raw (chars "routes") <;>
        first
          | exact accumulateRouteCounts_posVal _ [] (fun kv hkv => by simp at hkv)
          | (intro kv hkv; simp at hkv)
    have htfr_nneg : JNum.NnegVal (sumValues nr) :=
      sumValues_nnegVal nr (routesPosVal_nneg hnr_pos)
    constructor
    · unfold RoutesPosVal
      try dsimp only
      split
      · split
        next hcpos =>
          intro kv hkv
          rcases List.mem_cons.mp hkv with rfl | h2
          · exact ltb_zero_posVal hcpos
          · simp at h2
        next => exact hnr_pos
      · exact hnr_pos
    · unfold TotalInvariant
      try dsimp only
      split
      · split
        next hcpos =>
          have hc : JNum.PosVal ((jsToNumber (getField raw (chars "count"))).or0) :=
            ltb_zero_posVal hcpos
          try dsimp only
          have h1 : sumValues [(if (sanitizeRoute (.str LEGACY_ROUTE_NAME)).isEmpty
              then LEGACY_ROUTE_NAME else sanitizeRoute (.str LEGACY_ROUTE_NAME),
              (jsToNumber (getField raw (chars "count"))).or0)] =
              (jsToNumber (getField raw (chars "count"))).or0 := by
            show (JNum.fin 0).add ((jsToNumber (getField raw (chars "count"))).or0) = _
            exact JNum.add_zero_left (JNum.posVal_ne_nan hc)
          rw [h1]
          exact JNum.leb_refl (JNum.posVal_ne_nan hc)
        next =>
          try dsimp only
          split
          · exact JNum.leb_refl (JNum.nnegVal_ne_nan htfr_nneg)
          next hcnd =>
            push_neg at hcnd
            exact JNum.leb_of_not_ltb hcnd.1 (JNum.nnegVal_ne_nan htfr_nneg)
              (by simpa using hcnd.2)
      · try dsimp only
        split
        · exact JNum.leb_refl (JNum.nnegVal_ne_nan htfr_nneg)
        next hcnd =>
          push_neg at hcnd
          exact JNum.leb_of_not_ltb hcnd.1 (JNum.nnegVal_ne_nan htfr_nneg)
            (by simpa using hcnd.2)

lemma pruneDailyStats_routes (T : SiteStats) (ref : Int) :
    (pruneDailyStats T ref).routes = T.routes := by
  unfold pruneDailyStats
  split <;> rfl

lemma pruneDailyStats_total (T : SiteStats) (ref : Int) :
    (pruneDailyStats T ref).total = T.total := by
  unfold pruneDailyStats
  split <;> rfl

lemma incrementDailyCount_routes (T : SiteStats) (r k : List Char) :
    (incrementDailyCount T r k).routes = T.routes := rfl

lemma incrementDailyCount_total (T : SiteStats) (r k : List Char) :
    (incrementDailyCount T r k).total = T.total := rfl

lemma recordVisit_preserves (S : SiteStats) (route : JVal) (ref : Int)
    (hpos : RoutesPosVal S.routes) (hinv : TotalInvariant S) :
    RoutesPosVal (recordVisit S route ref).routes ∧
      TotalInvariant (recordVisit S route ref) := by
  unfold recordVisit
  by_cases hs : (sanitizeRoute route).isEmpty = true
  · rw [if_pos hs]
    exact ⟨hpos, hinv⟩
  · rw [if_neg hs]
    simp only []
    set r := sanitizeRoute route with hr
    set base : JNum := (match jget S.routes r with
      | some v => if v.truthy then v else .fin 0
      | none => .fin 0) with hbase
    set S1 : SiteStats := { S with
      routes := jset S.routes r (base.add (.fin 1))
      total := S.total.add (.fin 1) } with hS1
    have hroutes1 : RoutesPosVal S1.routes := by
      intro kv hkv
      rcases mem_jset hkv with h2 | h2
      · exact hpos kv h2
      · rw [h2]
        have hbn : JNum.NnegVal base := by
          rw [hbase]
          cases hget : jget S.routes r with
          | none => simp [JNum.NnegVal]
          | some w =>
              have hw : JNum.PosVal w := hpos _ (jget_mem hget)
              show JNum.NnegVal (if w.truthy = true then w else .fin 0)
              rw [if_pos (JNum.posVal_truthy hw)]
              exact JNum.posVal_nnegVal hw
        exact JNum.nnegVal_add_posVal hbn (by simp [JNum.PosVal])
    have hinv1 : TotalInvariant S1 := by
      unfold TotalInvariant
      rw [show S1.total = S.total.add (.fin 1) from rfl]
      rw [show S1.routes = jset S.routes r (base.add (.fin 1)) from rfl]
      cases hget : jget S.routes r with
      | none =>
          have hb0 : base = .fin 0 := by rw [hbase, hget]
          rw [hb0, jset_of_jget_none _ hget, sumValues_append_single]
          have h01 : (JNum.fin 0).add (.fin 1) = .fin 1 := by
            show JNum.fin (0 + 1) = JNum.fin 1
            norm_num
          rw [h01]
          exact JNum.leb_add_one hinv
      | some w =>
          have hw : JNum.PosVal w := hpos _ (jget_mem hget)
          have hbw : base = w := by
            rw [hbase, hget]
            show (if w.truthy = true then w else JNum.fin 0) = w
            exact if_pos (JNum.posVal_truthy hw)
          rw [hbw, sumValues_jset_add_one S.routes r w hget (routesPosVal_nneg hpos)]
          exact JNum.leb_add_one hinv
    constructor
    · rw [pruneDailyStats_routes, incrementDailyCount_routes]
      exact hroutes1
    · unfold TotalInvariant
      rw [pruneDailyStats_routes, incrementDailyCount_routes,
        pruneDailyStats_total, incrementDailyCount_total]
      exact hinv1

/-- **C3.**  Every SiteStats object returned by `normalizeStats` on
arbitrary input satisfies `total ≥ Σ routes` (in JS comparison semantics),
and the invariant is preserved by every sequence of `recordVisit`
mutations on such an object (each visit bumps one route count and the
total by one, or is rejected leaving the state unchanged). -/
theorem c3_total_dominates (raw : JVal) (visits : List (JVal × Int)) :
    TotalInvariant
      (visits.foldl (fun S rv => recordVisit S rv.1 rv.2) (normalizeStats raw)) := by
  suffices h : ∀ (l : List (JVal × Int)) (S : SiteStats),
      RoutesPosVal S.routes → TotalInvariant S →
      RoutesPosVal ((l.foldl (fun S rv => recordVisit S rv.1 rv.2) S)).routes ∧
        TotalInvariant (l.foldl (fun S rv => recordVisit S rv.1 rv.2) S) by
    exact (h visits (normalizeStats raw) (normalizeStats_good raw).1
      (normalizeStats_good raw).2).2
  intro l
  induction l with
  | nil => exact fun S h1 h2 => ⟨h1, h2⟩
  | cons y ys ih =>
      intro S h1 h2
      obtain ⟨h1q, h2q⟩ := recordVisit_preserves S y.1 y.2 h1 h2
      exact ih _ h1q h2q

lemma toNat_ofNat_small {n : ℕ} (h : n < 55296) : (Char.ofNat n).toNat = n := by
  unfold Char.ofNat
  rw [dif_pos (by exact Or.inl (by omega) : n.isValidChar)]
  rfl

lemma lowerChar_idem (c : Char) : lowerChar (lowerChar c) = lowerChar c := by
  unfold lowerChar
  by_cases h : 'A' ≤ c ∧ c ≤ 'Z'
  · rw [if_pos h]
    have h1 : c.toNat ≤ 90 := h.2
    have ht : (Char.ofNat (c.toNat + 32)).toNat = c.toNat + 32 :=
      toNat_ofNat_small (by omega)
    rw [if_neg]
    rintro ⟨-, hcon⟩
    have h2 : (Char.ofNat (c.toNat + 32)).toNat ≤ 90 := hcon
    have h3 : 65 ≤ c.toNat := h.1
    omega
  · rw [if_neg h, if_neg h]

lemma mem_collapseSlashes {c : Char} {l : List Char}
    (h : c ∈ collapseSlashes l) : c ∈ l := by
  induction l with
  | nil => simpa [collapseSlashes] using h
  | cons a rest ih =>
      rw [show collapseSlashes (a :: rest) =
        (if a = '/' ∧ (collapseSlashes rest).head? = some '/' then collapseSlashes rest
         else a :: collapseSlashes rest) from rfl] at h
      split at h
      · exact List.mem_cons_of_mem _ (ih h)
      · rcases List.mem_cons.mp h with rfl | h2
        · exact List.mem_cons_self _ _
        · exact List.mem_cons_of_mem _ (ih h2)

lemma head?_collapseSlashes (l : List Char) :
    (collapseSlashes l).head? = l.head? := by
  cases l with
  | nil => rfl
  | cons a rest =>
      rw [show collapseSlashes (a :: rest) =
        (if a = '/' ∧ (collapseSlashes rest).head? = some '/' then collapseSlashes rest
         else a :: collapseSlashes rest) from rfl]
      split
      next hcond => rw [hcond.2, hcond.1]; rfl
      next => rfl

lemma collapseSlashes_ne_nil {l : List Char} (h : l ≠ []) :
    collapseSlashes l ≠ [] := by
  intro hc
  have := head?_collapseSlashes l
  rw [hc] at this
  cases l with
  | nil => exact h rfl
  | cons a rest => simp at this

lemma chain'_collapseSlashes (l : List Char) :
    (collapseSlashes l).Chain' (fun a b => ¬(a = '/' ∧ b = '/')) := by
  induction l with
  | nil => simp [collapseSlashes]
  | cons a rest ih =>
      rw [show collapseSlashes (a :: rest) =
        (if a = '/' ∧ (collapseSlashes rest).head? = some '/' then collapseSlashes rest
         else a :: collapseSlashes rest) from rfl]
      split
      next => exact ih
      next hcond =>
        rw [List.chain'_cons']
        refine ⟨?_, ih⟩
        intro b hb
        rintro ⟨rfl, rfl⟩
        exact hcond ⟨rfl, hb⟩

lemma collapseSlashes_eq_self {l : List Char}
    (h : l.Chain' (fun a b => ¬(a = '/' ∧ b = '/'))) : collapseSlashes l = l := by
  induction l with
  | nil => rfl
  | cons a rest ih =>
      rw [List.chain'_cons'] at h
      obtain ⟨hhead, htail⟩ := h
      rw [show collapseSlashes (a :: rest) =
        (if a = '/' ∧ (collapseSlashes rest).head? = some '/' then collapseSlashes rest
         else a :: collapseSlashes rest) from rfl]
      rw [ih htail]
      rw [if_neg]
      rintro ⟨rfl, hh⟩
      exact hhead '/' hh ⟨rfl, rfl⟩

lemma getLast?_collapseSlashes (l : List Char) :
    (collapseSlashes l).getLast? = l.getLast? := by
  induction l with
  | nil => rfl
  | cons a rest ih =>
      rw [show collapseSlashes (a :: rest) =
        (if a = '/' ∧ (collapseSlashes rest).head? = some '/' then collapseSlashes rest
         else a :: collapseSlashes rest) from rfl]
      cases rest with
      | nil =>
          rw [show collapseSlashes ([] : List Char) = [] from rfl]
          simp
      | cons x xs =>
          have hne : collapseSlashes (x :: xs) ≠ [] := collapseSlashes_ne_nil (by simp)
          split
          · rw [ih, List.getLast?_cons_cons]
          · cases hcl : collapseSlashes (x :: xs) with
            | nil => exact absurd hcl hne
            | cons y ys =>
                rw [List.getLast?_cons_cons, ← hcl, ih, List.getLast?_cons_cons]

lemma head?_dropWhile_false (p : Char → Bool) (l : List Char) :
    ∀ c, (l.dropWhile p).head? = some c → p c = false := by
  induction l with
  | nil => intro c h; simp at h
  | cons a rest ih =>
      intro c h
      by_cases hp : p a = true
      · rw [List.dropWhile_cons_of_pos hp] at h
        exact ih c h
      · rw [List.dropWhile_cons_of_neg hp] at h
        obtain rfl := Option.some.inj h
        exact Bool.not_eq_true _ ▸ (by simpa using hp)

lemma dropWhile_eq_self_of_head (p : Char → Bool) (l : List Char)
    (h : ∀ c, l.head? = some c → p c = false) : l.dropWhile p = l := by
  cases l with
  | nil => rfl
  | cons a rest => exact List.dropWhile_cons_of_neg (by simp [h a rfl])

lemma takeWhile_eq_self_of_mem (p : Char → Bool) (l : List Char)
    (h : ∀ c ∈ l, p c = true) : l.takeWhile p = l := by
  induction l with
  | nil => rfl
  | cons a rest ih =>
      rw [List.takeWhile_cons_of_pos (h a (List.mem_cons_self _ _))]
      rw [ih (fun c hc => h c (List.mem_cons_of_mem _ hc))]

lemma map_eq_self_of_mem {f : Char → Char} {l : List Char}
    (h : ∀ c ∈ l, f c = c) : l.map f = l := by
  induction l with
  | nil => rfl
  | cons a rest ih =>
      rw [List.map_cons, h a (List.mem_cons_self _ _),
        ih (fun c hc => h c (List.mem_cons_of_mem _ hc))]

lemma dropTrailingSlashes_prefix (l : List Char) :
    ∃ t, dropTrailingSlashes l ++ t = l := by
  obtain ⟨t, ht⟩ := List.dropWhile_suffix (l := l.reverse) (p := fun c => c = '/')
  refine ⟨t.reverse, ?_⟩
  have := congrArg List.reverse ht
  rw [List.reverse_append] at this
  rw [dropTrailingSlashes]
  rw [this, List.reverse_reverse]

lemma mem_dropTrailingSlashes {c : Char} {l : List Char}
    (h : c ∈ dropTrailingSlashes l) : c ∈ l := by
  obtain ⟨t, ht⟩ := dropTrailingSlashes_prefix l
  rw [← ht]
  exact List.mem_append_left _ h

lemma getLast?_dropTrailingSlashes_not_slash (l : List Char) :
    ∀ c, (dropTrailingSlashes l).getLast? = some c → c ≠ '/' := by
  intro c h
  rw [dropTrailingSlashes, List.getLast?_reverse] at h
  have := head?_dropWhile_false (fun c => c = '/') l.reverse c h
  simpa using this

lemma dropTrailingSlashes_eq_self (l : List Char)
    (h : ∀ c, l.getLast? = some c → c ≠ '/') : dropTrailingSlashes l = l := by
  rw [dropTrailingSlashes]
  rw [dropWhile_eq_self_of_head _ _ (fun c hc => by
    rw [List.head?_reverse] at hc
    simpa using h c hc)]
  exact List.reverse_reverse l

lemma sanitizeRoute_str_cases (s : List Char) :
    sanitizeRoute (.str s) = [] ∨
    sanitizeRoute (.str s) = collapseSlashes (dropTrailingSlashes
      ((((trimChars s).map lowerChar).takeWhile
          (fun c => ¬(c = '?' ∨ c = '#'))).dropWhile (fun c => c = '/'))) := by
  rw [show sanitizeRoute (.str s) =
      (if ((trimChars s).map lowerChar).isEmpty then []
       else collapseSlashes (dropTrailingSlashes
        ((((trimChars s).map lowerChar).takeWhile
            (fun c => ¬(c = '?' ∨ c = '#'))).dropWhile (fun c => c = '/')))) from rfl]
  split
  · exact Or.inl rfl
  · exact Or.inr rfl

/-- **C1, counterexample.**  `sanitizeRoute` is not idempotent: on
`"/ a"` stripping the leading slash exposes a space, so the first pass
returns `" a"` while a second pass trims it to `"a"`. -/
theorem c1_counterexample :
    sanitizeRoute (.str (chars "/ a")) = chars " a" ∧
    sanitizeRoute (.str (sanitizeRoute (.str (chars "/ a")))) ≠
      sanitizeRoute (.str (chars "/ a")) := by
  constructor <;> decide

/-- **C1 (amended).**  `sanitizeRoute` is idempotent on every string whose
sanitized form carries no boundary whitespace (equivalently, is its own
trim) — the failure mode is exactly leading/trailing slashes exposing
whitespace that only a second pass would trim; and every non-string,
empty or whitespace-only input sanitizes to the empty key. -/
theorem c1_sanitize_idempotence_amended :
    (∀ s : List Char, trimChars (sanitizeRoute (.str s)) = sanitizeRoute (.str s) →
        sanitizeRoute (.str (sanitizeRoute (.str s))) = sanitizeRoute (.str s)) ∧
    (∀ v : JVal, typeofString v = false → sanitizeRoute v = []) ∧
    (∀ s : List Char, (∀ c ∈ s, isWsChar c = true) → sanitizeRoute (.str s) = []) := by
  refine ⟨?_, ?_, ?_⟩
  · intro s hTrim
    rcases sanitizeRoute_str_cases s with ho | ho
    · rw [ho]
      rfl
    · by_cases hnil : sanitizeRoute (.str s) = []
      · rw [hnil]
        rfl
      set t := (trimChars s).map lowerChar with ht
      set path := t.takeWhile (fun c => ¬(c = '?' ∨ c = '#')) with hpath
      set a := path.dropWhile (fun c => c = '/') with ha
      set b := dropTrailingSlashes a with hb
      -- membership chain down to the lowercased, query-free prefix
      have hmem : ∀ c ∈ sanitizeRoute (.str s), c ∈ t := by
        intro c hc
        rw [ho] at hc
        have h1 : c ∈ b := mem_collapseSlashes hc
        have h2 : c ∈ a := mem_dropTrailingSlashes h1
        have h3 : c ∈ path := (List.dropWhile_sublist _).subset h2
        exact (List.takeWhile_sublist _).subset h3
      have hlower : ∀ c ∈ sanitizeRoute (.str s), lowerChar c = c := by
        intro c hc
        obtain ⟨c0, -, rfl⟩ := List.mem_map.mp (hmem c hc)
        exact lowerChar_idem c0
      have hquery : ∀ c ∈ sanitizeRoute (.str s),
          (decide ¬(c = '?' ∨ c = '#')) = true := by
        intro c hc
        rw [ho] at hc
        have h1 : c ∈ b := mem_collapseSlashes hc
        have h2 : c ∈ a := mem_dropTrailingSlashes h1
        have h3 : c ∈ path := (List.dropWhile_sublist _).subset h2
        rw [hpath] at h3
        simpa using List.mem_takeWhile_imp h3
      have hbne : b ≠ [] := by
        intro hbnil
        apply hnil
        rw [ho, hbnil]
        rfl
      have hhead : ∀ c, (sanitizeRoute (.str s)).head? = some c →
          (decide (c = '/')) = false := by
        intro c hc
        rw [ho, head?_collapseSlashes] at hc
        cases hbc : b with
        | nil => exact absurd hbc hbne
        | cons c0 bs =>
            rw [hbc] at hc
            have hceq : c0 = c := Option.some.inj hc
            obtain ⟨tl, htl⟩ := dropTrailingSlashes_prefix a
            rw [← hb, hbc] at htl
            have hahead : a.head? = some c0 := by
              rw [← htl]
              rfl
            have hres := head?_dropWhile_false (fun x => decide (x = '/')) path c0
              (by rw [← ha]; exact hahead)
            rw [← hceq]
            simpa using hres
      have hlast : ∀ c, (sanitizeRoute (.str s)).getLast? = some c → c ≠ '/' := by
        intro c hc
        rw [ho, getLast?_collapseSlashes] at hc
        exact getLast?_dropTrailingSlashes_not_slash a c hc
      have hchain : (sanitizeRoute (.str s)).Chain' (fun x y => ¬(x = '/' ∧ y = '/')) := by
        rw [ho]
        exact chain'_collapseSlashes b
      -- now compute the second sanitization
      rw [show sanitizeRoute (.str (sanitizeRoute (.str s))) =
          (if ((trimChars (sanitizeRoute (.str s))).map lowerChar).isEmpty then []
           else collapseSlashes (dropTrailingSlashes
            ((((trimChars (sanitizeRoute (.str s))).map lowerChar).takeWhile
                (fun c => ¬(c = '?' ∨ c = '#'))).dropWhile (fun c => c = '/')))) from rfl]
      rw [hTrim, map_eq_self_of_mem hlower]
      rw [if_neg (by simpa using hnil)]
      rw [takeWhile_eq_self_of_mem _ _ hquery]
      rw [dropWhile_eq_self_of_head _ _ hhead]
      rw [dropTrailingSlashes_eq_self _ hlast]
      exact collapseSlashes_eq_self hchain
  · intro v hv
    cases v <;> first | rfl | simp [typeofString] at hv
  · intro s hs
    have h1 : trimChars s = [] := by
      rw [trimChars, List.dropWhile_eq_nil_iff.mpr (fun c hc => by
        simpa using hs c ((List.dropWhile_sublist _).subset (List.mem_reverse.mp hc)))]
      rfl
    rw [show sanitizeRoute (.str s) =
        (if ((trimChars s).map lowerChar).isEmpty then []
         else collapseSlashes (dropTrailingSlashes
          ((((trimChars s).map lowerChar).takeWhile
              (fun c => ¬(c = '?' ∨ c = '#'))).dropWhile (fun c => c = '/')))) from rfl]
    rw [h1]
    rfl

/-- Witness for C1 at `"/Home/"`, whose sanitized form `home` is trimmed. -/
theorem c1_witness :
    trimChars (sanitizeRoute (.str (chars "/Home/"))) =
      sanitizeRoute (.str (chars "/Home/")) ∧
    sanitizeRoute (.str (sanitizeRoute (.str (chars "/Home/")))) =
      sanitizeRoute (.str (chars "/Home/")) :=
  ⟨by decide, (c1_sanitize_idempotence_amended).1 (chars "/Home/") (by decide)⟩

lemma jget_eq_none_iff {α : Type} (m : JMap α) (r : List Char) :
    jget m r = none ↔ r ∉ m.map Prod.fst := by
  induction m with
  | nil => simp [jget]
  | cons y ys ih =>
      obtain ⟨k0, v0⟩ := y
      rw [jget_cons, List.map_cons]
      by_cases hc : k0 = r
      · rw [if_pos hc]
        constructor
        · intro h
          exact Option.noConfusion h
        · intro h
          exact absurd (List.mem_cons.mpr (Or.inl hc.symm)) h
      · rw [if_neg hc, ih]
        constructor
        · intro h hor
          rcases List.mem_cons.mp hor with h2 | h2
          · exact hc h2.symm
          · exact h h2
        · intro h h2
          exact h (List.mem_cons.mpr (Or.inr h2))

lemma jset_keys_of_mem {α : Type} (m : JMap α) (r : List Char) (v : α)
    (h : r ∈ m.map Prod.fst) : (jset m r v).map Prod.fst = m.map Prod.fst := by
  induction m with
  | nil => simp at h
  | cons y ys ih =>
      obtain ⟨k0, v0⟩ := y
      rw [jset_cons]
      by_cases hc : k0 = r
      · rw [if_pos hc, List.map_cons, List.map_cons]
        rw [hc]
      · rw [if_neg hc, List.map_cons, List.map_cons]
        congr 1
        apply ih
        rw [List.map_cons] at h
        rcases List.mem_cons.mp h with h2 | h2
        · exact absurd h2.symm hc
        · exact h2

lemma jset_keys_of_not_mem {α : Type} (m : JMap α) (r : List Char) (v : α)
    (h : r ∉ m.map Prod.fst) : (jset m r v).map Prod.fst = m.map Prod.fst ++ [r] := by
  rw [jset_of_jget_none v ((jget_eq_none_iff m r).mpr h)]
  simp

lemma nodup_jset_keys {α : Type} (m : JMap α) (r : List Char) (v : α)
    (h : (m.map Prod.fst).Nodup) : ((jset m r v).map Prod.fst).Nodup := by
  by_cases hm : r ∈ m.map Prod.fst
  · rw [jset_keys_of_mem m r v hm]
    exact h
  · rw [jset_keys_of_not_mem m r v hm]
    simp [List.nodup_append, h, hm]

lemma jset_ne_nil {α : Type} (m : JMap α) (r : List Char) (v : α) :
    jset m r v ≠ [] := by
  cases m with
  | nil => simp [jset]
  | cons y ys =>
      obtain ⟨k0, v0⟩ := y
      rw [jset_cons]
      split <;> simp

lemma jget_append_single_none {α : Type} (m : JMap α) (k x : List Char) (v : α)
    (hm : jget m x = none) (hx : x ≠ k) : jget (m ++ [(k, v)]) x = none := by
  induction m with
  | nil => simpa [jget] using fun h => absurd h.symm hx
  | cons y ys ih =>
      obtain ⟨k0, v0⟩ := y
      rw [jget_cons] at hm
      by_cases hc : k0 = x
      · rw [if_pos hc] at hm
        simp at hm
      · rw [if_neg hc] at hm
        rw [List.cons_append, jget_cons, if_neg hc]
        exact ih hm

lemma keys_filter_nodup {α : Type} (m : JMap α) (p : List Char × α → Bool)
    (h : (m.map Prod.fst).Nodup) : ((m.filter p).map Prod.fst).Nodup :=
  List.Nodup.sublist (List.Sublist.map _ (List.filter_sublist m)) h

lemma getField_serializeStats_total (S : SiteStats) :
    getField (serializeStats S) (chars "total") = jnumToJson S.total := rfl

lemma getField_serializeStats_routes (S : SiteStats) :
    getField (serializeStats S) (chars "routes") = serializeRoutes S.routes := rfl

lemma getField_serializeStats_daily (S : SiteStats) :
    getField (serializeStats S) (chars "daily") =
      .obj (S.daily.map (fun kv => (kv.1, serializeRoutes kv.2))) := rfl

lemma getField_serializeStats_sessions (S : SiteStats) :
    getField (serializeStats S) (chars "sessionDurations") =
      .obj (S.sessionDurations.map (fun kv => (kv.1, serializeSummary kv.2))) := rfl

lemma getField_serializeStats_routeDur (S : SiteStats) :
    getField (serializeStats S) (chars "routeDurations") =
      .obj (S.routeDurations.map (fun kv =>
        (kv.1, JVal.obj (kv.2.map (fun rv => (rv.1, serializeSummary rv.2)))))) := rfl

lemma getField_serializeStats_count (S : SiteStats) :
    getField (serializeStats S) (chars "count") = .undef := rfl

lemma getField_serializeSummary_min (s : DurationSummary) :
    getField (serializeSummary s) (chars "min") = jnumToJson s.min := rfl

lemma getField_serializeSummary_max (s : DurationSummary) :
    getField (serializeSummary s) (chars "max") = jnumToJson s.max := rfl

lemma getField_serializeSummary_count (s : DurationSummary) :
    getField (serializeSummary s) (chars "count") = jnumToJson s.count := rfl

lemma getField_serializeSummary_totalDuration (s : DurationSummary) :
    getField (serializeSummary s) (chars "totalDuration") = jnumToJson s.totalDuration := rfl

lemma accumulateRouteCounts_roundtrip (l : JMap JNum) (acc : JMap JNum)
    (hdisj : ∀ kv ∈ l, jget acc kv.1 = none)
    (hnd : (l.map Prod.fst).Nodup)
    (hgood : ∀ kv ∈ l, GoodRouteKey kv.1 ∧ GoodCount kv.2) :
    accumulateRouteCounts acc (l.map (fun kv => (kv.1, jnumToJson kv.2))) = acc ++ l := by
  induction l generalizing acc with
  | nil => simp [accumulateRouteCounts]
  | cons y rest ih =>
      obtain ⟨k, v⟩ := y
      obtain ⟨⟨hkne, hkstable⟩, q, rfl, hqpos⟩ := hgood (k, v) (List.mem_cons_self _ _)
      rw [List.map_cons]
      rw [show accumulateRouteCounts acc ((k, jnumToJson (.fin q)) ::
          rest.map (fun kv => (kv.1, jnumToJson kv.2))) =
        (if JNum.ltb (.fin 0) ((jsToNumber (jnumToJson (.fin q))).or0) &&
            !(sanitizeRoute (.str k)).isEmpty then
          accumulateRouteCounts
            (jset acc (sanitizeRoute (.str k))
              ((jnumValOr0 (jget acc (sanitizeRoute (.str k)))).add
                ((jsToNumber (jnumToJson (.fin q))).or0)))
            (rest.map (fun kv => (kv.1, jnumToJson kv.2)))
        else accumulateRouteCounts acc (rest.map (fun kv => (kv.1, jnumToJson kv.2)))) from rfl]
      have hnum : (jsToNumber (jnumToJson (.fin q))).or0 = .fin q := by
        show (JNum.fin q).or0 = .fin q
        rw [JNum.or0, if_pos]
        simp [JNum.truthy]
        exact ne_of_gt hqpos
      rw [hnum, hkstable]
      rw [if_pos (by
        rw [Bool.and_eq_true]
        constructor
        · simp [JNum.ltb, hqpos]
        · simpa using hkne)]
      have hgetnone : jget acc k = none := hdisj (k, .fin q) (List.mem_cons_self _ _)
      rw [hgetnone]
      rw [show jnumValOr0 none = JNum.fin 0 from rfl]
      have hval : (JNum.fin 0).add (.fin q) = .fin q := by
        show JNum.fin (0 + q) = .fin q
        rw [zero_add]
      rw [hval, jset_of_jget_none _ hgetnone]
      rw [ih (acc ++ [(k, JNum.fin q)])
        (fun kv hkv => jget_append_single_none acc k kv.1 _ (hdisj kv (List.mem_cons_of_mem _ hkv))
          (by
            intro hx
            rw [List.map_cons] at hnd
            have hmm : kv.1 ∈ rest.map Prod.fst := List.mem_map_of_mem Prod.fst hkv
            rw [hx] at hmm
            exact (List.nodup_cons.mp hnd).1 hmm))
        ((List.nodup_cons.mp (List.map_cons Prod.fst _ _ ▸ hnd)).2)
        (fun kv hkv => hgood kv (List.mem_cons_of_mem _ hkv))]
      rw [List.append_assoc]
      rfl

lemma normalizeDailyLoop_roundtrip (l : JMap (JMap JNum)) (acc : JMap (JMap JNum))
    (hdisj : ∀ kv ∈ l, jget acc kv.1 = none)
    (hnd : (l.map Prod.fst).Nodup)
    (hgood : ∀ kv ∈ l, isValidDateKey kv.1 = true ∧ kv.2 ≠ [] ∧ GoodRoutes kv.2) :
    normalizeDailyLoop acc (l.map (fun kv => (kv.1, serializeRoutes kv.2))) = acc ++ l := by
  induction l generalizing acc with
  | nil => simp [normalizeDailyLoop]
  | cons y rest ih =>
      obtain ⟨dk, day⟩ := y
      obtain ⟨hvalid, hne, hnodupd, hgoodd⟩ := hgood (dk, day) (List.mem_cons_self _ _)
      rw [List.map_cons]
      rw [show normalizeDailyLoop acc ((dk, serializeRoutes day) ::
          rest.map (fun kv => (kv.1, serializeRoutes kv.2))) =
        (if isValidDateKey dk = true then
          (if (accumulateRouteCounts [] (day.map (fun kv => (kv.1, jnumToJson kv.2)))).isEmpty
           then normalizeDailyLoop acc (rest.map (fun kv => (kv.1, serializeRoutes kv.2)))
           else normalizeDailyLoop
              (jset acc dk (accumulateRouteCounts [] (day.map (fun kv => (kv.1, jnumToJson kv.2)))))
              (rest.map (fun kv => (kv.1, serializeRoutes kv.2))))
         else normalizeDailyLoop acc (rest.map (fun kv => (kv.1, serializeRoutes kv.2)))) from rfl]
      rw [if_pos hvalid]
      have hacc : accumulateRouteCounts [] (day.map (fun kv => (kv.1, jnumToJson kv.2))) = day := by
        have := accumulateRouteCounts_roundtrip day [] (fun kv _ => rfl) hnodupd hgoodd
        simpa using this
      rw [hacc, if_neg (by simpa using hne)]
      have hgetnone : jget acc dk = none := hdisj (dk, day) (List.mem_cons_self _ _)
      rw [jset_of_jget_none _ hgetnone]
      rw [ih (acc ++ [(dk, day)])
        (fun kv hkv => jget_append_single_none acc dk kv.1 _
          (hdisj kv (List.mem_cons_of_mem _ hkv))
          (by
            intro hx
            rw [List.map_cons] at hnd
            have hmm : kv.1 ∈ rest.map Prod.fst := List.mem_map_of_mem Prod.fst hkv
            rw [hx] at hmm
            exact (List.nodup_cons.mp hnd).1 hmm))
        ((List.nodup_cons.mp (List.map_cons Prod.fst _ _ ▸ hnd)).2)
        (fun kv hkv => hgood kv (List.mem_cons_of_mem _ hkv))]
      rw [List.append_assoc]
      rfl

lemma floor_intCast_add_half (z : ℤ) : ⌊(z : ℚ) + 1/2⌋ = z := by
  apply Int.floor_eq_iff.mpr
  constructor
  · push_cast; linarith
  · push_cast; linarith

lemma roundQ_intCast (z : ℤ) : roundQ (z : ℚ) = (z : ℚ) := by
  rw [roundQ, floor_intCast_add_half]

lemma sanitizeDurationValue_intCast (z : ℤ) (h1 : 1 ≤ z)
    (h2 : (z : ℚ) ≤ MAX_TRACKABLE_DURATION_MS) :
    sanitizeDurationValue (.num (.fin (z : ℚ))) = some ((z : ℚ)) := by
  unfold sanitizeDurationValue
  show (if (z:ℚ) ≤ 0 then none
      else some (roundQ (min (z:ℚ) MAX_TRACKABLE_DURATION_MS))) = _
  rw [if_neg (by
      intro hcon
      have hz : (1:ℚ) ≤ (z:ℚ) := by exact_mod_cast h1
      linarith), min_eq_left h2, roundQ_intCast]


lemma or0_fin_of_ne (q : ℚ) (h : q ≠ 0) : (JNum.fin q).or0 = .fin q := by
  simp [JNum.or0, JNum.truthy, h]

lemma normalizeDurationSummary_roundtrip (s : DurationSummary) (h : GoodSummary s) :
    normalizeDurationSummary (serializeSummary s) = some s := by
  obtain ⟨smin, smax, scount, stotal⟩ := s
  obtain ⟨m, M, c, T, hmin, hmax, hcount, htotal, h1m, hmM, hMmax, h1c, hmcT, hTMc⟩ := h
  replace hmin : smin = JNum.fin (m:ℚ) := hmin
  replace hmax : smax = JNum.fin (M:ℚ) := hmax
  replace hcount : scount = JNum.fin (c:ℚ) := hcount
  replace htotal : stotal = JNum.fin (T:ℚ) := htotal
  have hmQ : (1:ℚ) ≤ (m:ℚ) := by exact_mod_cast h1m
  have hcQ : (1:ℚ) ≤ (c:ℚ) := by exact_mod_cast h1c
  have hmMQ : (m:ℚ) ≤ (M:ℚ) := by exact_mod_cast hmM
  have hTlo : (m:ℚ) * (c:ℚ) ≤ (T:ℚ) := by
    have h1 : ((m * c : ℤ) : ℚ) ≤ ((T : ℤ) : ℚ) := by exact_mod_cast hmcT
    push_cast at h1
    linarith
  have hThi : (T:ℚ) ≤ (M:ℚ) * (c:ℚ) := by
    have h1 : ((T : ℤ) : ℚ) ≤ ((M * c : ℤ) : ℚ) := by exact_mod_cast hTMc
    push_cast at h1
    linarith
  have hTpos : (0:ℚ) < (T:ℚ) := by nlinarith
  have hc0 : (JNum.fin (c:ℚ)).or0 = .fin (c:ℚ) := or0_fin_of_ne _ (by linarith)
  have hT0 : (JNum.fin (T:ℚ)).or0 = .fin (T:ℚ) := or0_fin_of_ne _ (by linarith)
  unfold normalizeDurationSummary
  have hobj : isObjTruthy (serializeSummary ⟨smin, smax, scount, stotal⟩) = true := rfl
  rw [if_neg (not_not_intro hobj)]
  simp only [getField_serializeSummary_count, getField_serializeSummary_totalDuration,
    getField_serializeSummary_min, getField_serializeSummary_max, hmin, hmax, hcount, htotal,
    jnumToJson, jsToNumber, hc0, hT0]
  rw [if_neg (by
    push_neg
    refine ⟨?_, ?_⟩
    · simp only [JNum.truthy, decide_eq_true_eq]
      exact ne_of_gt (by linarith)
    · simp only [JNum.leb, ne_eq, decide_eq_true_eq]
      exact not_le.mpr hTpos)]
  rw [sanitizeDurationValue_intCast m h1m (le_trans hmMQ hMmax),
      sanitizeDurationValue_intCast M (le_trans h1m hmM) hMmax]
  show (if (m:ℚ) = 0 ∨ (M:ℚ) = 0 then none
    else some (⟨JNum.fin ((m:ℚ) ⊓ (M:ℚ)), JNum.fin ((m:ℚ) ⊔ (M:ℚ)), JNum.fin (c:ℚ),
      ((if ¬ (JNum.fin (T:ℚ)).jround.isFinite = true ∨
            (JNum.fin (T:ℚ)).jround.leb (JNum.fin 0) = true
          then (JNum.fin ((m:ℚ) ⊓ (M:ℚ))).mul (JNum.fin (c:ℚ))
          else (JNum.fin (T:ℚ)).jround).jmax
        ((JNum.fin ((m:ℚ) ⊓ (M:ℚ))).mul (JNum.fin (c:ℚ)))).jmin
        ((JNum.fin ((m:ℚ) ⊔ (M:ℚ))).mul (JNum.fin (c:ℚ)))⟩ : DurationSummary)) =
    some (⟨JNum.fin (m:ℚ), JNum.fin (M:ℚ), JNum.fin (c:ℚ), JNum.fin (T:ℚ)⟩ : DurationSummary)
  rw [if_neg (by
    push_neg
    exact ⟨ne_of_gt (by linarith), ne_of_gt (by linarith)⟩)]
  have hTr : (JNum.fin (T:ℚ)).jround = .fin (T:ℚ) := by
    show JNum.fin ((⌊(T:ℚ) + 1/2⌋ : ℤ) : ℚ) = _
    rw [floor_intCast_add_half]
  rw [hTr]
  rw [if_neg (by
    push_neg
    refine ⟨rfl, ?_⟩
    simp only [JNum.leb, ne_eq, decide_eq_true_eq]
    exact not_le.mpr hTpos)]
  rw [min_eq_left hmMQ, max_eq_right hmMQ]
  simp only [JNum.mul, JNum.jmax, JNum.jmin]
  rw [max_eq_left hTlo, min_eq_left hThi]

lemma normalizeSessionLoop_roundtrip (l : JMap DurationSummary) (acc : JMap DurationSummary)
    (hdisj : ∀ kv ∈ l, jget acc kv.1 = none)
    (hnd : (l.map Prod.fst).Nodup)
    (hgood : ∀ kv ∈ l, isValidDateKey kv.1 = true ∧ GoodSummary kv.2) :
    normalizeSessionLoop acc (l.map (fun kv => (kv.1, serializeSummary kv.2))) = acc ++ l := by
  induction l generalizing acc with
  | nil => simp [normalizeSessionLoop]
  | cons y rest ih =>
      obtain ⟨dk, sm⟩ := y
      obtain ⟨hvalid, hgs⟩ := hgood (dk, sm) (List.mem_cons_self _ _)
      rw [List.map_cons]
      rw [show normalizeSessionLoop acc ((dk, serializeSummary sm) ::
          rest.map (fun kv => (kv.1, serializeSummary kv.2))) =
        (if isValidDateKey dk = true then
          (match normalizeDurationSummary (serializeSummary sm) with
           | some ns => normalizeSessionLoop (jset acc dk ns)
               (rest.map (fun kv => (kv.1, serializeSummary kv.2)))
           | none => normalizeSessionLoop acc
               (rest.map (fun kv => (kv.1, serializeSummary kv.2))))
         else normalizeSessionLoop acc
           (rest.map (fun kv => (kv.1, serializeSummary kv.2)))) from rfl]
      rw [if_pos hvalid, normalizeDurationSummary_roundtrip sm hgs]
      show normalizeSessionLoop (jset acc dk sm)
        (rest.map (fun kv => (kv.1, serializeSummary kv.2))) = acc ++ (dk, sm) :: rest
      rw [jset_of_jget_none _ (hdisj (dk, sm) (List.mem_cons_self _ _))]
      rw [ih (acc ++ [(dk, sm)])
        (fun kv hkv => jget_append_single_none acc dk kv.1 _
          (hdisj kv (List.mem_cons_of_mem _ hkv))
          (by
            intro hx
            rw [List.map_cons] at hnd
            have hmm : kv.1 ∈ rest.map Prod.fst := List.mem_map_of_mem Prod.fst hkv
            rw [hx] at hmm
            exact (List.nodup_cons.mp hnd).1 hmm))
        ((List.nodup_cons.mp (List.map_cons Prod.fst _ _ ▸ hnd)).2)
        (fun kv hkv => hgood kv (List.mem_cons_of_mem _ hkv))]
      rw [List.append_assoc]
      rfl

lemma normalizeRouteDurLoop_roundtrip (l : JMap DurationSummary) (acc : JMap DurationSummary)
    (hdisj : ∀ kv ∈ l, jget acc kv.1 = none)
    (hnd : (l.map Prod.fst).Nodup)
    (hgood : ∀ kv ∈ l, GoodRouteKey kv.1 ∧ GoodSummary kv.2) :
    normalizeRouteDurLoop acc (l.map (fun kv => (kv.1, serializeSummary kv.2))) = acc ++ l := by
  induction l generalizing acc with
  | nil => simp [normalizeRouteDurLoop]
  | cons y rest ih =>
      obtain ⟨rk, sm⟩ := y
      obtain ⟨⟨hne, hfix⟩, hgs⟩ := hgood (rk, sm) (List.mem_cons_self _ _)
      rw [List.map_cons]
      rw [show normalizeRouteDurLoop acc ((rk, serializeSummary sm) ::
          rest.map (fun kv => (kv.1, serializeSummary kv.2))) =
        (if (sanitizeRoute (.str rk)).isEmpty = true then
          normalizeRouteDurLoop acc (rest.map (fun kv => (kv.1, serializeSummary kv.2)))
         else
          (match normalizeDurationSummary (serializeSummary sm) with
           | some ns => normalizeRouteDurLoop
               (jset acc (sanitizeRoute (.str rk))
                 ((mergeDurationSummaries (jget acc (sanitizeRoute (.str rk))) (some ns)).getD ns))
               (rest.map (fun kv => (kv.1, serializeSummary kv.2)))
           | none => normalizeRouteDurLoop acc
               (rest.map (fun kv => (kv.1, serializeSummary kv.2))))) from rfl]
      rw [hfix]
      rw [if_neg (by simpa using hne)]
      rw [normalizeDurationSummary_roundtrip sm hgs]
      show normalizeRouteDurLoop
        (jset acc rk ((mergeDurationSummaries (jget acc rk) (some sm)).getD sm))
        (rest.map (fun kv => (kv.1, serializeSummary kv.2))) = acc ++ (rk, sm) :: rest
      rw [hdisj (rk, sm) (List.mem_cons_self _ _)]
      show normalizeRouteDurLoop (jset acc rk sm)
        (rest.map (fun kv => (kv.1, serializeSummary kv.2))) = acc ++ (rk, sm) :: rest
      rw [jset_of_jget_none _ (hdisj (rk, sm) (List.mem_cons_self _ _))]
      rw [ih (acc ++ [(rk, sm)])
        (fun kv hkv => jget_append_single_none acc rk kv.1 _
          (hdisj kv (List.mem_cons_of_mem _ hkv))
          (by
            intro hx
            rw [List.map_cons] at hnd
            have hmm : kv.1 ∈ rest.map Prod.fst := List.mem_map_of_mem Prod.fst hkv
            rw [hx] at hmm
            exact (List.nodup_cons.mp hnd).1 hmm))
        ((List.nodup_cons.mp (List.map_cons Prod.fst _ _ ▸ hnd)).2)
        (fun kv hkv => hgood kv (List.mem_cons_of_mem _ hkv))]
      rw [List.append_assoc]
      rfl

lemma normalizeRouteDurDayLoop_roundtrip (l : JMap (JMap DurationSummary))
    (acc : JMap (JMap DurationSummary))
    (hdisj : ∀ kv ∈ l, jget acc kv.1 = none)
    (hnd : (l.map Prod.fst).Nodup)
    (hgood : ∀ kv ∈ l, isValidDateKey kv.1 = true ∧ kv.2 ≠ [] ∧
      (kv.2.map Prod.fst).Nodup ∧ ∀ rv ∈ kv.2, GoodRouteKey rv.1 ∧ GoodSummary rv.2) :
    normalizeRouteDurDayLoop acc
      (l.map (fun kv => (kv.1, .obj (kv.2.map (fun rv => (rv.1, serializeSummary rv.2)))))) =
    acc ++ l := by
  induction l generalizing acc with
  | nil => simp [normalizeRouteDurDayLoop]
  | cons y rest ih =>
      obtain ⟨dk, day⟩ := y
      obtain ⟨hvalid, hne, hnodupd, hgoodd⟩ := hgood (dk, day) (List.mem_cons_self _ _)
      rw [List.map_cons]
      rw [show normalizeRouteDurDayLoop acc
          ((dk, .obj (day.map (fun rv => (rv.1, serializeSummary rv.2)))) ::
            rest.map (fun kv => (kv.1, .obj (kv.2.map (fun rv => (rv.1, serializeSummary rv.2)))))) =
        (if isValidDateKey dk = true then
          (if (normalizeRouteDurLoop [] (day.map (fun rv => (rv.1, serializeSummary rv.2)))).isEmpty
           then normalizeRouteDurDayLoop acc
             (rest.map (fun kv => (kv.1, .obj (kv.2.map (fun rv => (rv.1, serializeSummary rv.2))))))
           else normalizeRouteDurDayLoop
             (jset acc dk (normalizeRouteDurLoop [] (day.map (fun rv => (rv.1, serializeSummary rv.2)))))
             (rest.map (fun kv => (kv.1, .obj (kv.2.map (fun rv => (rv.1, serializeSummary rv.2)))))))
         else normalizeRouteDurDayLoop acc
           (rest.map (fun kv => (kv.1, .obj (kv.2.map (fun rv => (rv.1, serializeSummary rv.2)))))))
        from rfl]
      rw [if_pos hvalid]
      have hday : normalizeRouteDurLoop [] (day.map (fun rv => (rv.1, serializeSummary rv.2))) = day := by
        have := normalizeRouteDurLoop_roundtrip day [] (fun kv _ => rfl) hnodupd hgoodd
        simpa using this
      rw [hday, if_neg (by simpa using hne)]
      rw [jset_of_jget_none _ (hdisj (dk, day) (List.mem_cons_self _ _))]
      rw [ih (acc ++ [(dk, day)])
        (fun kv hkv => jget_append_single_none acc dk kv.1 _
          (hdisj kv (List.mem_cons_of_mem _ hkv))
          (by
            intro hx
            rw [List.map_cons] at hnd
            have hmm : kv.1 ∈ rest.map Prod.fst := List.mem_map_of_mem Prod.fst hkv
            rw [hx] at hmm
            exact (List.nodup_cons.mp hnd).1 hmm))
        ((List.nodup_cons.mp (List.map_cons Prod.fst _ _ ▸ hnd)).2)
        (fun kv hkv => hgood kv (List.mem_cons_of_mem _ hkv))]
      rw [List.append_assoc]
      rfl

lemma ltb_false_of_leb (x y : JNum) (h : JNum.leb x y = true) : JNum.ltb y x = false := by
  cases x <;> cases y <;> simp_all [JNum.leb, JNum.ltb] <;> linarith

lemma normalizeStats_serialize_id (S : SiteStats) (h : GoodStats S) :
    normalizeStats (serializeStats S) = S := by
  obtain ⟨stot, srt, sdy, ssd, srd⟩ := S
  obtain ⟨⟨t, htot, ht0⟩, hinv, hroutes, hdaily, hsess, hrd⟩ := h
  replace htot : stot = JNum.fin t := htot
  replace hinv : (sumValues srt).leb stot = true := hinv
  rw [htot] at hinv
  have hacc : accumulateRouteCounts [] (srt.map (fun kv => (kv.1, jnumToJson kv.2))) = srt := by
    have := accumulateRouteCounts_roundtrip srt [] (fun kv _ => rfl) hroutes.1 hroutes.2
    simpa using this
  have hdy : normalizeDailyLoop []
      (sdy.map (fun kv => (kv.1, JVal.obj (kv.2.map (fun rv => (rv.1, jnumToJson rv.2)))))) =
      sdy := by
    have := normalizeDailyLoop_roundtrip sdy [] (fun kv _ => rfl) hdaily.1 hdaily.2
    simpa [serializeRoutes] using this
  have hss : normalizeSessionLoop [] (ssd.map (fun kv => (kv.1, serializeSummary kv.2))) = ssd := by
    have := normalizeSessionLoop_roundtrip ssd [] (fun kv _ => rfl) hsess.1 hsess.2
    simpa using this
  have hrdl : normalizeRouteDurDayLoop []
      (srd.map (fun kv => (kv.1, .obj (kv.2.map (fun rv => (rv.1, serializeSummary rv.2)))))) =
      srd := by
    have := normalizeRouteDurDayLoop_roundtrip srd [] (fun kv _ => rfl) hrd.1 hrd.2
    simpa using this
  have hltb : JNum.ltb (.fin t) (sumValues srt) = false := ltb_false_of_leb _ _ hinv
  unfold normalizeStats
  rw [if_neg (not_not_intro
    (show isObjTruthy (serializeStats ⟨stot, srt, sdy, ssd, srd⟩) = true by rfl))]
  simp only [getField_serializeStats_total, getField_serializeStats_routes,
    getField_serializeStats_daily, getField_serializeStats_sessions,
    getField_serializeStats_routeDur, getField_serializeStats_count,
    serializeRoutes, htot, typeofNumber, Bool.and_false,
    normalizeDailyStats, normalizeSessionDurationMap, normalizeRouteDurationMap,
    hacc, hdy, hss, hrdl, Bool.false_eq_true, if_false,
    show jsToNumber (jnumToJson (JNum.fin t)) = JNum.fin t from rfl,
    show (JNum.fin t).isFinite = true from rfl, hltb,
    not_true, false_or, or_false]
  done

lemma sanitizeDurationValue_bounds {v : JVal} {q : ℚ}
    (h : sanitizeDurationValue v = some q) :
    ∃ z : ℤ, q = (z : ℚ) ∧ 0 ≤ z ∧ (z : ℚ) ≤ MAX_TRACKABLE_DURATION_MS := by
  unfold sanitizeDurationValue at h
  cases hn : jsToNumber v <;> rw [hn] at h
  case nan => simp at h
  case posInf => simp at h
  case negInf => simp at h
  case fin q0 =>
    replace h : (if q0 ≤ 0 then none
        else some (roundQ (min q0 MAX_TRACKABLE_DURATION_MS))) = some q := h
    by_cases h0 : q0 ≤ 0
    · rw [if_pos h0] at h; simp at h
    · rw [if_neg h0] at h
      replace h := Option.some.inj h
      push_neg at h0
      have hMpos : (0:ℚ) < MAX_TRACKABLE_DURATION_MS := by
        norm_num [MAX_TRACKABLE_DURATION_MS]
      refine ⟨⌊min q0 MAX_TRACKABLE_DURATION_MS + 1/2⌋, ?_, ?_, ?_⟩
      · rw [← h]; rfl
      · rw [Int.le_floor]
        have hmin : 0 < min q0 MAX_TRACKABLE_DURATION_MS := lt_min h0 hMpos
        push_cast
        linarith
      · have hz : ⌊min q0 MAX_TRACKABLE_DURATION_MS + 1/2⌋ ≤ (86400000 : ℤ) := by
          by_contra hcon
          push_neg at hcon
          have h1 : ((86400001:ℤ) : ℚ) ≤ min q0 MAX_TRACKABLE_DURATION_MS + 1/2 :=
            Int.le_floor.mp (by omega)
          have h3 : MAX_TRACKABLE_DURATION_MS = 86400000 := by
            norm_num [MAX_TRACKABLE_DURATION_MS]
          have h2 : min q0 MAX_TRACKABLE_DURATION_MS ≤ 86400000 :=
            le_trans (min_le_right _ _) (le_of_eq h3)
          push_cast at h1
          linarith
        have hq : ((⌊min q0 MAX_TRACKABLE_DURATION_MS + 1/2⌋ : ℤ) : ℚ) ≤ 86400000 := by
          exact_mod_cast hz
        have h3 : MAX_TRACKABLE_DURATION_MS = 86400000 := by
          norm_num [MAX_TRACKABLE_DURATION_MS]
        linarith

lemma goodSummary_create (z : ℤ) (h1 : 1 ≤ z)
    (h2 : (z : ℚ) ≤ MAX_TRACKABLE_DURATION_MS) :
    GoodSummary (createDurationSummary (z : ℚ)) := by
  refine ⟨z, z, 1, z, rfl, rfl, ?_, ?_, h1, le_refl z, h2, le_refl 1, ?_, ?_⟩
  · show JNum.fin 1 = JNum.fin ((1:ℤ):ℚ)
    norm_num
  · rfl
  · rw [mul_one]
  · rw [mul_one]

lemma goodSummary_update (s : DurationSummary) (z : ℤ) (hs : GoodSummary s)
    (h1 : 1 ≤ z) (h2 : (z : ℚ) ≤ MAX_TRACKABLE_DURATION_MS) :
    GoodSummary ⟨s.min.jmin (.fin (z:ℚ)), s.max.jmax (.fin (z:ℚ)),
      (s.count.or0).add (.fin 1), (s.totalDuration.or0).add (.fin (z:ℚ))⟩ := by
  obtain ⟨m, M, c, T, hmin, hmax, hcount, htotal, h1m, hmM, hMmax, h1c, hmcT, hTMc⟩ := hs
  rw [hmin, hmax, hcount, htotal]
  have hc0 : (JNum.fin (c:ℚ)).or0 = .fin (c:ℚ) := or0_fin_of_ne _ (by
    have : (1:ℚ) ≤ (c:ℚ) := by exact_mod_cast h1c
    linarith)
  have hT1 : (1:ℤ) ≤ T := by nlinarith
  have hT0 : (JNum.fin (T:ℚ)).or0 = .fin (T:ℚ) := or0_fin_of_ne _ (by
    have : (1:ℚ) ≤ (T:ℚ) := by exact_mod_cast hT1
    linarith)
  rw [hc0, hT0]
  have hcnn : (0:ℤ) ≤ c := by linarith
  refine ⟨min m z, max M z, c + 1, T + z, ?_, ?_, ?_, ?_, le_min h1m h1,
    le_trans (min_le_left m z) (le_trans hmM (le_max_left M z)), ?_, by linarith, ?_, ?_⟩
  · show JNum.fin (min (m:ℚ) (z:ℚ)) = JNum.fin ((min m z : ℤ) : ℚ)
    push_cast
    rfl
  · show JNum.fin (max (M:ℚ) (z:ℚ)) = JNum.fin ((max M z : ℤ) : ℚ)
    push_cast
    rfl
  · show JNum.fin ((c:ℚ) + 1) = JNum.fin ((c + 1 : ℤ) : ℚ)
    push_cast
    rfl
  · show JNum.fin ((T:ℚ) + (z:ℚ)) = JNum.fin ((T + z : ℤ) : ℚ)
    push_cast
    rfl
  · show ((max M z : ℤ) : ℚ) ≤ MAX_TRACKABLE_DURATION_MS
    push_cast
    exact max_le hMmax h2
  · have hmc : min m z * c ≤ m * c :=
      mul_le_mul_of_nonneg_right (min_le_left m z) hcnn
    have hmz : min m z ≤ z := min_le_right m z
    nlinarith
  · have hMc : M * c ≤ max M z * c :=
      mul_le_mul_of_nonneg_right (le_max_left M z) hcnn
    have hMz : z ≤ max M z := le_max_right M z
    nlinarith

lemma goodRoutes_jset (m : JMap JNum) (r : List Char) (v : JNum)
    (hg : GoodRoutes m) (hk : GoodRouteKey r) (hv : GoodCount v) :
    GoodRoutes (jset m r v) := by
  refine ⟨nodup_jset_keys _ _ _ hg.1, fun kv hkv => ?_⟩
  rcases mem_jset hkv with h2 | h2
  · exact hg.2 kv h2
  · rw [h2]
    exact ⟨hk, hv⟩

lemma goodCount_base_add_one (m : JMap JNum) (r : List Char)
    (hg : ∀ kv ∈ m, GoodCount kv.2) :
    GoodCount ((match jget m r with
      | some v => if v.truthy then v else JNum.fin 0
      | none => JNum.fin 0).add (.fin 1)) := by
  cases hget : jget m r with
  | none =>
      show GoodCount ((JNum.fin 0).add (.fin 1))
      exact ⟨0 + 1, rfl, by norm_num⟩
  | some v =>
      obtain ⟨q, hq, hq0⟩ := hg _ (jget_mem hget)
      replace hq : v = JNum.fin q := hq
      rw [hq]
      show GoodCount ((if (JNum.fin q).truthy = true then JNum.fin q else JNum.fin 0).add (.fin 1))
      rw [if_pos (by
        simp only [JNum.truthy, ne_eq, decide_eq_true_eq]
        exact ne_of_gt hq0)]
      exact ⟨q + 1, rfl, by linarith⟩

lemma goodDaily_increment (d : JMap (JMap JNum)) (r dk : List Char)
    (hd : GoodDaily d) (hk : GoodRouteKey r) (hdk : isValidDateKey dk = true) :
    GoodDaily (jset d dk
      (jset ((jget d dk).getD []) r
        ((match jget ((jget d dk).getD []) r with
           | some v => if v.truthy then v else JNum.fin 0
           | none => JNum.fin 0).add (.fin 1)))) := by
  have hday : GoodRoutes ((jget d dk).getD []) := by
    cases hget : jget d dk with
    | none => exact ⟨List.nodup_nil, fun kv hkv => absurd hkv (List.not_mem_nil kv)⟩
    | some day => exact (hd.2 _ (jget_mem hget)).2.2
  refine ⟨nodup_jset_keys _ _ _ hd.1, fun kv hkv => ?_⟩
  rcases mem_jset hkv with h2 | h2
  · exact hd.2 kv h2
  · rw [h2]
    exact ⟨hdk, jset_ne_nil _ _ _,
      goodRoutes_jset _ _ _ hday hk
        (goodCount_base_add_one _ _ (fun kv hkv => (hday.2 kv hkv).2))⟩

lemma goodDaily_prune (m : JMap (JMap JNum)) (cut : Int) (h : GoodDaily m) :
    GoodDaily (pruneDateMap m cut) :=
  ⟨keys_filter_nodup _ _ h.1, fun kv hkv => h.2 kv (List.mem_of_mem_filter hkv)⟩

lemma goodSessions_prune (m : JMap DurationSummary) (cut : Int) (h : GoodSessions m) :
    GoodSessions (pruneDateMap m cut) :=
  ⟨keys_filter_nodup _ _ h.1, fun kv hkv => h.2 kv (List.mem_of_mem_filter hkv)⟩

lemma goodRouteDur_prune (m : JMap (JMap DurationSummary)) (cut : Int)
    (h : GoodRouteDurations m) : GoodRouteDurations (pruneDateMap m cut) :=
  ⟨keys_filter_nodup _ _ h.1, fun kv hkv => h.2 kv (List.mem_of_mem_filter hkv)⟩

lemma goodStats_prune (S : SiteStats) (ref : Int) (h : GoodStats S) :
    GoodStats (pruneDailyStats S ref) := by
  obtain ⟨ht, hinv, hr, hd, hs, hrd⟩ := h
  unfold pruneDailyStats
  split
  · exact ⟨ht, hinv, hr, hd, hs, hrd⟩
  · exact ⟨ht, hinv, hr, goodDaily_prune _ _ hd, goodSessions_prune _ _ hs,
      goodRouteDur_prune _ _ hrd⟩

lemma goodStats_visit (S : SiteStats) (route : JVal) (ref : Int)
    (h : GoodStats S) (hstable : routeStableB route = true)
    (hvalid : isValidDateKey (getTodayKey ref) = true) :
    GoodStats (recordVisit S route ref) := by
  obtain ⟨⟨t, htot, ht0⟩, hinv, hroutes, hdaily, hsess, hrd⟩ := h
  have hpos : RoutesPosVal S.routes := by
    intro kv hkv
    obtain ⟨q, hq, hq0⟩ := (hroutes.2 kv hkv).2
    rw [hq]
    exact hq0
  have hTI : TotalInvariant (recordVisit S route ref) :=
    (recordVisit_preserves S route ref hpos hinv).2
  unfold recordVisit at hTI ⊢
  by_cases hs : (sanitizeRoute route).isEmpty = true
  · rw [if_pos hs]
    exact ⟨⟨t, htot, ht0⟩, hinv, hroutes, hdaily, hsess, hrd⟩
  · rw [if_neg hs]
    rw [if_neg hs] at hTI
    have hfix : sanitizeRoute (.str (sanitizeRoute route)) = sanitizeRoute route := by
      rw [routeStableB, Bool.or_eq_true] at hstable
      rcases hstable with h1 | h1
      · exact absurd h1 (by simpa using hs)
      · simpa using h1
    have hkey : GoodRouteKey (sanitizeRoute route) := ⟨by simpa using hs, hfix⟩
    set r := sanitizeRoute route with hr
    set base : JNum := (match jget S.routes r with
      | some v => if v.truthy then v else .fin 0
      | none => .fin 0) with hbase
    set S1 : SiteStats := { S with
      routes := jset S.routes r (base.add (.fin 1))
      total := S.total.add (.fin 1) } with hS1
    apply goodStats_prune
    have hTI2 : TotalInvariant (incrementDailyCount S1 r (getTodayKey ref)) := by
      unfold TotalInvariant at hTI ⊢
      rw [pruneDailyStats_total, pruneDailyStats_routes] at hTI
      exact hTI
    refine ⟨⟨t + 1, ?_, by linarith⟩, hTI2, ?_, ?_, hsess, hrd⟩
    · rw [incrementDailyCount_total]
      show S.total.add (.fin 1) = JNum.fin (t + 1)
      rw [htot]
      rfl
    · rw [incrementDailyCount_routes]
      show GoodRoutes (jset S.routes r (base.add (.fin 1)))
      rw [hbase]
      exact goodRoutes_jset _ _ _ hroutes hkey
        (goodCount_base_add_one _ _ (fun kv hkv => (hroutes.2 kv hkv).2))
    · exact goodDaily_increment S.daily r (getTodayKey ref) hdaily hkey hvalid

lemma goodStats_sessionUpdate (S : SiteStats) (z : ℤ) (dk : List Char)
    (h : GoodStats S) (hdk : isValidDateKey dk = true) (h1 : 1 ≤ z)
    (h2 : (z : ℚ) ≤ MAX_TRACKABLE_DURATION_MS) :
    GoodStats (updateSessionDurationMetrics S (z : ℚ) dk) := by
  obtain ⟨ht, hinv, hr, hd, hs, hrd⟩ := h
  unfold updateSessionDurationMetrics
  split
  next hget =>
    refine ⟨ht, hinv, hr, hd, ?_, hrd⟩
    refine ⟨nodup_jset_keys _ _ _ hs.1, fun kv hkv => ?_⟩
    rcases mem_jset hkv with h3 | h3
    · exact hs.2 kv h3
    · rw [h3]
      exact ⟨hdk, goodSummary_create z h1 h2⟩
  next summary hget =>
    refine ⟨ht, hinv, hr, hd, ?_, hrd⟩
    refine ⟨nodup_jset_keys _ _ _ hs.1, fun kv hkv => ?_⟩
    rcases mem_jset hkv with h3 | h3
    · exact hs.2 kv h3
    · rw [h3]
      exact ⟨hdk, goodSummary_update summary z ((hs.2 _ (jget_mem hget)).2) h1 h2⟩

lemma goodStats_routeUpdate (S : SiteStats) (r : List Char) (z : ℤ) (dk : List Char)
    (h : GoodStats S) (hk : GoodRouteKey r) (hdk : isValidDateKey dk = true)
    (h1 : 1 ≤ z) (h2 : (z : ℚ) ≤ MAX_TRACKABLE_DURATION_MS) :
    GoodStats (updateRouteDurationMetrics S r (z : ℚ) dk) := by
  obtain ⟨ht, hinv, hr, hd, hs, hrd⟩ := h
  have hday : ((((jget S.routeDurations dk).getD []).map Prod.fst).Nodup ∧
      ∀ rv ∈ (jget S.routeDurations dk).getD [], GoodRouteKey rv.1 ∧ GoodSummary rv.2) := by
    cases hget : jget S.routeDurations dk with
    | none => exact ⟨List.nodup_nil, fun rv hrv => absurd hrv (List.not_mem_nil rv)⟩
    | some day => exact ⟨(hrd.2 _ (jget_mem hget)).2.2.1, (hrd.2 _ (jget_mem hget)).2.2.2⟩
  unfold updateRouteDurationMetrics
  simp only []
  split
  next hget =>
    refine ⟨ht, hinv, hr, hd, hs, ?_⟩
    refine ⟨nodup_jset_keys _ _ _ hrd.1, fun kv hkv => ?_⟩
    rcases mem_jset hkv with h3 | h3
    · exact hrd.2 kv h3
    · rw [h3]
      refine ⟨hdk, jset_ne_nil _ _ _, nodup_jset_keys _ _ _ hday.1, fun rv hrv => ?_⟩
      rcases mem_jset hrv with h4 | h4
      · exact hday.2 rv h4
      · rw [h4]
        exact ⟨hk, goodSummary_create z h1 h2⟩
  next summary hget =>
    refine ⟨ht, hinv, hr, hd, hs, ?_⟩
    refine ⟨nodup_jset_keys _ _ _ hrd.1, fun kv hkv => ?_⟩
    rcases mem_jset hkv with h3 | h3
    · exact hrd.2 kv h3
    · rw [h3]
      refine ⟨hdk, jset_ne_nil _ _ _, nodup_jset_keys _ _ _ hday.1, fun rv hrv => ?_⟩
      rcases mem_jset hrv with h4 | h4
      · exact hday.2 rv h4
      · rw [h4]
        exact ⟨hk, goodSummary_update summary z ((hday.2 _ (jget_mem hget)).2) h1 h2⟩

lemma goodStats_duration (S : SiteStats) (scope durationVal routeVal : JVal) (ref : Int)
    (h : GoodStats S) (hstable : routeStableB routeVal = true)
    (hvalid : isValidDateKey (getTodayKey ref) = true) :
    GoodStats (recordDuration S scope durationVal routeVal ref) := by
  unfold recordDuration
  simp only []
  split
  · exact h
  next hscope =>
    split
    · exact h
    next d hsan =>
      split
      · exact h
      next hd0 =>
        obtain ⟨z, hz, hz0, hzM⟩ := sanitizeDurationValue_bounds hsan
        have hz1 : 1 ≤ z := by
          rcases lt_or_eq_of_le hz0 with h' | h'
          · omega
          · exfalso
            apply hd0
            rw [hz, ← h']
            norm_num
        subst hz
        have hS1 : GoodStats (pruneDailyStats S ref) := goodStats_prune S ref h
        split
        next hroute =>
          split
          next hempty => exact hS1
          next hempty =>
            have hfix : sanitizeRoute (.str (sanitizeRoute routeVal)) = sanitizeRoute routeVal := by
              rw [routeStableB, Bool.or_eq_true] at hstable
              rcases hstable with h1 | h1
              · exact absurd h1 (by simpa using hempty)
              · simpa using h1
            exact goodStats_routeUpdate _ _ z _ hS1
              ⟨by simpa using hempty, hfix⟩ hvalid hz1 hzM
        next => exact goodStats_sessionUpdate _ z _ hS1 hvalid hz1 hzM

lemma goodStats_empty : GoodStats createEmptyStats := by
  refine ⟨⟨0, rfl, le_refl 0⟩, ?_, ?_, ?_, ?_, ?_⟩
  · show (sumValues createEmptyStats.routes).leb createEmptyStats.total = true
    simp [createEmptyStats, sumValues, JNum.leb]
  · exact ⟨List.nodup_nil, fun kv hkv => absurd hkv (List.not_mem_nil kv)⟩
  · exact ⟨List.nodup_nil, fun kv hkv => absurd hkv (List.not_mem_nil kv)⟩
  · exact ⟨List.nodup_nil, fun kv hkv => absurd hkv (List.not_mem_nil kv)⟩
  · exact ⟨List.nodup_nil, fun kv hkv => absurd hkv (List.not_mem_nil kv)⟩

lemma goodStats_runOps (ops : List EngineOp) (S : SiteStats) (hS : GoodStats S)
    (h : ops.all tameOp = true) : GoodStats (runOps S ops) := by
  induction ops generalizing S with
  | nil => exact hS
  | cons op rest ih =>
      rw [List.all_cons, Bool.and_eq_true] at h
      have hop : GoodStats (applyOp S op) := by
        cases op with
        | visit route ref =>
            have h1 : (routeStableB route && isValidDateKey (getTodayKey ref)) = true := h.1
            rw [Bool.and_eq_true] at h1
            exact goodStats_visit S route ref hS h1.1 h1.2
        | duration scope dv route ref =>
            have h1 : (routeStableB route && isValidDateKey (getTodayKey ref)) = true := h.1
            rw [Bool.and_eq_true] at h1
            exact goodStats_duration S scope dv route ref hS h1.1 h1.2
        | pruneAt ref => exact goodStats_prune S ref hS
      exact ih (applyOp S op) hop h.2

lemma resolveSiteKey_default : resolveSiteKey (.str DEFAULT_SITE) = some DEFAULT_SITE := by
  decide

lemma normalizeSitesStore_roundtrip (T : SiteStats) (hT : GoodStats T) :
    normalizeSitesStore (serializeSitesStore [(DEFAULT_SITE, T)]) = [(DEFAULT_SITE, T)] := by
  unfold normalizeSitesStore
  rw [if_pos (show isObjTruthy (serializeSitesStore [(DEFAULT_SITE, T)]) = true ∧
      isObjTruthy (getField (serializeSitesStore [(DEFAULT_SITE, T)]) (chars "sites")) = true
      by exact ⟨rfl, rfl⟩)]
  have hg : getField (serializeSitesStore [(DEFAULT_SITE, T)]) (chars "sites") =
      .obj [(DEFAULT_SITE, serializeStats T)] := rfl
  rw [hg]
  have hloop : normalizeSitesLoop [] [(DEFAULT_SITE, serializeStats T)] =
      [(DEFAULT_SITE, normalizeStats (serializeStats T))] := by
    rw [show normalizeSitesLoop [] [(DEFAULT_SITE, serializeStats T)] =
      (match resolveSiteKey (.str DEFAULT_SITE) with
       | some resolved =>
           normalizeSitesLoop (jset [] resolved (normalizeStats (serializeStats T))) []
       | none => normalizeSitesLoop [] []) from rfl]
    rw [resolveSiteKey_default]
    rfl
  show (if (normalizeSitesLoop [] [(DEFAULT_SITE, serializeStats T)]).isEmpty
    then [(DEFAULT_SITE, createEmptyStats)]
    else normalizeSitesLoop [] [(DEFAULT_SITE, serializeStats T)]) = [(DEFAULT_SITE, T)]
  rw [hloop, normalizeStats_serialize_id T hT]
  rfl

set_option maxHeartbeats 2000000 in
/-- **C2, counterexample.**  The state produced by the engine's own
operation `recordVisit` with route `"/ a"` at instant `0` does *not*
round-trip: the stored route key `" a"` (trim runs before slash
stripping) re-sanitizes to `"a"` when the serialized state is normalized,
so `normalizeStats (serializeStats S) ≠ S` for this engine-produced `S`. -/
theorem c2_counterexample :
    normalizeStats (serializeStats
      (runOps createEmptyStats [.visit (.str (chars "/ a")) 0])) ≠
      runOps createEmptyStats [.visit (.str (chars "/ a")) 0] := by
  have h1 : sanitizeRoute (.str (chars "/ a")) = chars " a" := by decide
  have h2 : sanitizeRoute (.str (chars " a")) = chars "a" := by decide
  have hkey : getTodayKey 0 = chars "1969-12-31" := by decide
  have hts : getTimestampForDateKey (chars "1969-12-31") = some (-68400000) := by decide
  have hS0 : runOps createEmptyStats [.visit (.str (chars "/ a")) 0] =
      ⟨.fin 1, [(chars " a", .fin 1)],
        [(chars "1969-12-31", [(chars " a", .fin 1)])], [], []⟩ := by
    show recordVisit createEmptyStats (.str (chars "/ a")) 0 = _
    norm_num +decide [recordVisit, createEmptyStats, incrementDailyCount, pruneDailyStats,
      pruneDateMap, jget, jset, jnumValOr0, JNum.add, h1, hkey, hts, List.filter,
      MAX_DAILY_HISTORY_DAYS, DAY_IN_MS, List.isEmpty]
  rw [hS0]
  have hN : (normalizeStats (serializeStats
      (⟨.fin 1, [(chars " a", .fin 1)],
        [(chars "1969-12-31", [(chars " a", .fin 1)])], [], []⟩ : SiteStats))).routes =
      [(chars "a", .fin 1)] := by
    norm_num +decide [normalizeStats, serializeStats, serializeRoutes, getField, chars,
      List.find?, isObjTruthy, jvTruthy, typeofObject, typeofNumber, accumulateRouteCounts,
      jsToNumber, jnumToJson, JNum.or0, JNum.truthy, JNum.ltb, JNum.add, jnumValOr0,
      jget, jset, List.isEmpty, sumValues, JNum.isFinite, h2]
  intro heq
  have h3 := congrArg SiteStats.routes heq
  rw [hN] at h3
  have h4 := congrArg (List.map Prod.fst) h3
  simp only [List.map_cons, List.map_nil] at h4
  exact absurd h4 (by decide)

/-- **C2 (amended).**  On states produced from empty stats by *tame*
engine operations (route arguments that are rejected or sanitize to a
fixed point of `sanitizeRoute`, and reference instants with a valid today
key), `normalizeStats ∘ serializeStats` is the identity, and the
single-site store round-trips through `normalizeSitesStore` as well.  The
unrestricted claim is false (`c2_counterexample`): a visit to `"/ a"`
stores the key `" a"`, which re-sanitizes to `"a"` on reload. -/
theorem c2_roundtrip_amended (ops : List EngineOp) (h : ops.all tameOp = true) :
    normalizeStats (serializeStats (runOps createEmptyStats ops)) =
      runOps createEmptyStats ops ∧
    normalizeSitesStore (serializeSitesStore
        [(DEFAULT_SITE, runOps createEmptyStats ops)]) =
      [(DEFAULT_SITE, runOps createEmptyStats ops)] := by
  have hg : GoodStats (runOps createEmptyStats ops) :=
    goodStats_runOps ops createEmptyStats goodStats_empty h
  exact ⟨normalizeStats_serialize_id _ hg, normalizeSitesStore_roundtrip _ hg⟩

/-- Witness for C2: one tame visit to `"home"` at instant `0` round-trips
exactly. -/
theorem c2_witness :
    [EngineOp.visit (.str (chars "home")) 0].all tameOp = true ∧
    (normalizeStats (serializeStats (runOps createEmptyStats
        [EngineOp.visit (.str (chars "home")) 0])) =
      runOps createEmptyStats [EngineOp.visit (.str (chars "home")) 0] ∧
     normalizeSitesStore (serializeSitesStore [(DEFAULT_SITE,
        runOps createEmptyStats [EngineOp.visit (.str (chars "home")) 0])]) =
      [(DEFAULT_SITE,
        runOps createEmptyStats [EngineOp.visit (.str (chars "home")) 0])]) :=
  ⟨by decide, c2_roundtrip_amended [EngineOp.visit (.str (chars "home")) 0] (by decide)⟩
